import Mathlib

/-!
# Verification of the STAR best-fit tabulation engine

Shallow embedding of the scheduling app's STAR Voting tabulation core
(`star.ts`, together with the availability collation helper it consumes).

Modelling conventions:

* Time labels are modelled by their chronological value in minutes (`Int`).
  The app converts opaque label strings to `Temporal.ZonedDateTime` objects
  once (`calculateTimeMap`) and afterwards only compares them and adds
  minutes, so the label-to-date map is the identity here and
  `Temporal.ZonedDateTime.compare` becomes integer comparison.
* JavaScript numbers are modelled by `ℚ`.  All scores reaching the engine
  are (sums of) small integers, and the one division the engine performs
  (`score / numTimeslots`, plus the preference fraction) is exact in the
  reachable range, matching IEEE doubles on these inputs.
* `Array.prototype.sort` with a numeric comparator is a stable sort
  (ES2019).  For a total preorder the stable sorted permutation is unique,
  so it is modelled by `List.insertionSort` (a stable sort) with the
  matching total preorder.
* `structuredClone` is the identity on values in a pure model.
* Functions that can `throw` are modelled with `Option`, `none` being the
  thrown error (including the `TypeError` from reading a property of
  `undefined` after an `as Candidate` cast of a missing element).
* The external seeded PRNG (`seedrandom`) is modelled as a parameter
  `String → Nat → ℚ`: the value of draw `i` for a given seed string.  The
  library is deterministic in the seed and the draw order, which is all the
  engine relies on.
* In-place mutation of candidate arrays (the in-place sort inside a mini
  round, and `calculateRankedWins` writing `rankedWins` into the candidate
  objects it is passed) is threaded explicitly; each site is commented.
-/

namespace StarFit

/-- Time labels, identified with their chronological value in minutes. -/
abbrev Time := Int

/-- `TimeScore` from the API config: a time label and the score given to it. -/
structure TimeScore where
  time : Time
  score : ℚ
  deriving Repr, DecidableEq, Inhabited

/-- `PersonResponse`: a person's name, sparse availability and creation time. -/
structure PersonResponse where
  name : String
  availability : List TimeScore
  created_at : Int
  deriving Repr, DecidableEq, Inhabited

/-- `MAXSCORE = 5` (minimum score always assumed to be 0). -/
def MAXSCORE : ℚ := 5

/-- `TIMESLOT_MINUTES = 15`, length of timeslots in minutes. -/
def TIMESLOT_MINUTES : Nat := 15

/-- `getScoreForTime`: current score for a time in an availability list; a
missing time means score zero. -/
def getScoreForTime (time : Time) (availability : List TimeScore) : ℚ :=
  match availability.find? (fun item => item.time = time) with
  | some timescore => timescore.score
  | none => 0

/-- `dropZeroScores`: filter out times whose score is 0 (absence encodes
unavailability). -/
def dropZeroScores (availability : List TimeScore) : List TimeScore :=
  availability.filter (fun item => decide (0 < item.score))

/-- `NameScore` from `calculateAvailability`: a person and the score they
gave a date. -/
structure NameScore where
  name : String
  score : ℚ
  deriving Repr, DecidableEq, Inhabited

/-- `Availability` for a date: the date and everyone who gave it a positive
score. -/
structure Availability where
  date : Time
  people : List NameScore
  deriving Repr, DecidableEq, Inhabited

/-- `calculateAvailability` (external collator consumed by the engine): for
each date, the people giving it a positive score.  The source also returns
the minimum and maximum total score, which the STAR engine never reads, so
they are omitted here.  The source short-circuits on an empty people list. -/
def calculateAvailability (dates : List Time) (people : List PersonResponse) :
    List Availability :=
  if people.length = 0 then []
  else
    dates.map fun date =>
      { date := date
        people := people.flatMap fun p =>
          let score := getScoreForTime date p.availability
          if 0 < score then [{ name := p.name, score := score }] else [] }

/-- `timeInsideRange`: strictly inside the range, equality at a bound does
not count (`Temporal.ZonedDateTime.compare` is integer comparison here). -/
def timeInsideRange (other : Time) (range : Time × Time) : Bool :=
  decide (range.1 < other) && decide (other < range.2)

/-- The per-start window score of `replaceScoresWithFullScores`: the score
at array position `idx` plus the scores of the next `duration / 15` array
positions (`slice(idx, idx + numTimeslots)`) that fall strictly inside the
window `(start, start + duration)`. -/
def windowScore (fullAvailability : List TimeScore) (idx : Nat) (duration : Nat) : ℚ :=
  let numTimeslots := duration / TIMESLOT_MINUTES
  let a := fullAvailability.getD idx default
  let range := (a.time, a.time + (duration : Int))
  a.score +
    ((((fullAvailability.drop idx).take numTimeslots).filter
        (fun a2 => timeInsideRange a2.time range)).map (fun c => c.score)).sum

/-- `replaceScoresWithFullScores`: change each person's score for a time to
the total score they would give a meeting of the desired duration starting
at that time.  The source expands to all candidate times (zero-filling
unscored ones), sorts ascending chronologically, maps each index to its
window score (`windowScore`), and drops zero scores.  The source's
`map((a, idx) => …)` is rendered as a map over `List.range`. -/
def replaceScoresWithFullScores (times : List Time) (people : List PersonResponse)
    (duration : Nat) : List PersonResponse :=
  people.map fun p =>
    let fullAvailability :=
      (times.map fun time =>
        ({ time := time, score := getScoreForTime time p.availability } : TimeScore)
      ).insertionSort (fun a b => a.time ≤ b.time)
    let newAvailability := (List.range fullAvailability.length).map fun idx =>
      ({ time := (fullAvailability.getD idx default).time
         score := windowScore fullAvailability idx duration } : TimeScore)
    { name := p.name
      availability := dropZeroScores newAvailability
      created_at := p.created_at }

/-- `Candidate`: a candidate meeting time together with its metrics.
`rankedWins = none` models the source's `undefined` (computed fresh for
each ranked robin round). -/
structure Candidate where
  date : Time
  people : List NameScore
  score : ℚ
  rankedWins : Option Nat
  fiveStars : Nat
  randomTieValue : ℚ
  deriving Repr, DecidableEq, Inhabited

/-- `calculateSimpleCandidateMetrics`: per-candidate total score, five-star
count (people whose average window score strictly exceeds 4.5) and one
pseudorandom draw per candidate, in index order (`rng i` is the `i`-th draw
of the seeded generator). -/
def calculateSimpleCandidateMetrics (times : List Availability) (duration : Nat)
    (rng : Nat → ℚ) : List Candidate :=
  let numTimeslots := duration / TIMESLOT_MINUTES
  (List.range times.length).map fun i =>
    let t := times.getD i default
    { date := t.date
      people := t.people
      score := t.people.foldl (fun sum p => sum + p.score) 0
      rankedWins := none
      fiveStars := (t.people.filter
        (fun p => decide ((MAXSCORE - 1/2) < p.score / (numTimeslots : ℚ)))).length
      randomTieValue := rng i }

/-- `calculateRankedWinsBetweenPair`: the number of people counted as a win
for `a` over `b`: the person is missing from `b`'s list, or their `a` score
strictly exceeds their `b` score.  The source's counting loop is rendered
as `filter`+`length`. -/
def calculateRankedWinsBetweenPair (a b : List NameScore) : Nat :=
  (a.filter fun aNameScore =>
    match b.find? (fun p => p.name = aNameScore.name) with
    | none => true
    | some bNameScore => decide (bNameScore.score < aNameScore.score)).length

/-- `calculateRankedWins`: 1-1 matchups among all pairs of the remaining
candidates.  The source accumulates wins over unordered pairs `i < j` in
both directions and stores them in place; candidate `i`'s total is the sum
of its wins against every `j ≠ i`, which is what this pure version
computes (the updated list is returned instead of mutating). -/
def calculateRankedWins (candidates : List Candidate) : List Candidate :=
  (List.range candidates.length).map fun i =>
    let c := candidates.getD i default
    let wins := ((List.range candidates.length).filter (fun j => decide (j ≠ i))).foldl
      (fun acc j =>
        acc + calculateRankedWinsBetweenPair c.people (candidates.getD j default).people) 0
    { c with rankedWins := some wins }

/-- The four mini round types. -/
inductive miniRoundType where
  | score
  | rankedRobin
  | fiveStars
  | random
  deriving Repr, DecidableEq

/-- `getMetric`: retrieve a scoring metric.  Reading `rankedWins` before it
has been computed throws in the source, modelled by `none`. -/
def getMetric (candidate : Candidate) (metric : miniRoundType) : Option ℚ :=
  match metric with
  | .score => some candidate.score
  | .rankedRobin => candidate.rankedWins.map (fun n => (n : ℚ))
  | .fiveStars => some (candidate.fiveStars : ℚ)
  | .random => some candidate.randomTieValue

/-- Total version of `getMetric`, used below only where every metric is
known to be defined. -/
def metricD (candidate : Candidate) (metric : miniRoundType) : ℚ :=
  (getMetric candidate metric).getD 0

/-- `MiniRoundResult` (the clones of the source are identities here). -/
structure MiniRoundResult where
  roundType : miniRoundType
  candidates : List Candidate
  winners : List Candidate
  tied : List Candidate
  deriving Repr, DecidableEq

/-- `calculateMiniRound`: winners and still-tied candidates for one metric.
`none` models the two thrown errors: the `numWinners >= candidates.length`
precondition fault, and reading an uncomputed ranked robin metric (the
check is hoisted before the sort; the source would throw from inside the
comparator the first time the metric is read).  A ranked robin round first
recomputes `rankedWins` over the candidates still under consideration (in
place in the source).  The sort is the stable descending sort by the
metric; `candidates[numWinners]` is in range by the precondition. -/
def calculateMiniRound (numWinners : Nat) (candidates : List Candidate)
    (roundType : miniRoundType) : Option MiniRoundResult :=
  if candidates.length ≤ numWinners then none
  else
    let candidates :=
      if roundType = .rankedRobin then calculateRankedWins candidates else candidates
    if candidates.all (fun c => (getMetric c roundType).isSome) then
      let scoringFunc := fun c => metricD c roundType
      let sorted := candidates.insertionSort (fun a b => scoringFunc b ≤ scoringFunc a)
      let scoreToBeat := scoringFunc (sorted.getD numWinners default)
      let winners := sorted.filter (fun w => decide (scoreToBeat < scoringFunc w))
      let tied :=
        if winners.length = numWinners then []
        else sorted.filter (fun w => decide (scoringFunc w = scoreToBeat))
      some { roundType := roundType, candidates := sorted, winners := winners, tied := tied }
    else none

/-- `FullRoundResult`; `candidates` is the snapshot of the starting pool. -/
structure FullRoundResult where
  candidates : List Candidate
  rounds : List MiniRoundResult
  winners : List Candidate
  deriving Repr, DecidableEq

/-- The loop of `calculateFullRound`: run mini rounds in order, accumulate
winners, pass the tied candidates on, stop as soon as the desired number of
winners is reached. -/
def fullRoundLoop (numWinners : Nat) (winners : List Candidate)
    (candidates : List Candidate) :
    List miniRoundType → Option (List MiniRoundResult × List Candidate)
  | [] => some ([], winners)
  | t :: ts =>
    match calculateMiniRound (numWinners - winners.length) candidates t with
    | none => none
    | some roundResult =>
      let winners' := winners ++ roundResult.winners
      if winners'.length = numWinners then some ([roundResult], winners')
      else
        match fullRoundLoop numWinners winners' roundResult.tied ts with
        | none => none
        | some (rs, w) => some (roundResult :: rs, w)

/-- `calculateFullRound`: a full round as a sequence of mini rounds. -/
def calculateFullRound (numWinners : Nat) (candidates : List Candidate)
    (miniRounds : List miniRoundType) : Option FullRoundResult :=
  match fullRoundLoop numWinners [] candidates miniRounds with
  | none => none
  | some (rs, w) => some { candidates := candidates, rounds := rs, winners := w }

/-- `removeOverlapsWithTopScorer`: with more than two candidates, find the
single highest scorer by a full round and discard every candidate whose
window start or end falls strictly inside the top window.  The source's
full round sorts the passed array in place during its first (score) mini
round, so the filter runs over the score-sorted array; `winners[0]` of an
unresolved round is `undefined` and crashes on `.date` (`none` here). -/
def removeOverlapsWithTopScorer (candidates : List Candidate) (duration : Nat) :
    Option (List Candidate) :=
  if 2 < candidates.length then
    match calculateFullRound 1 candidates
        [.score, .rankedRobin, .fiveStars, .random] with
    | none => none
    | some scoreResult =>
      match scoreResult.winners.head? with
      | none => none
      | some highestScored =>
        let start := highestScored.date
        let stop := start + (duration : Int)
        let sortedCandidates :=
          candidates.insertionSort (fun a b => b.score ≤ a.score)
        some (sortedCandidates.filter fun other =>
          !(timeInsideRange other.date (start, stop)
            || timeInsideRange (other.date + (duration : Int)) (start, stop)))
  else some candidates

/-- `StarResults`: optional best time, next best, and preference fraction. -/
structure StarResults where
  bestTime : Option TimeScore
  nextBest : Option TimeScore
  preferredFraction : Option ℚ
  deriving Repr, DecidableEq

/-- `calculateStarBest`: the STAR Voting best pick.  With two or more
candidates: a scoring round for two winners, then a runoff round over those
winners for one.  The source's runoff mutates the scoring winners in place
(its first mini round recomputes and stores their 1-on-1 `rankedWins`), so
the `find` for the runner-up reads those updated records; the model threads
the updated list `finalists` explicitly (with exactly two winners of
distinct dates the found element does not depend on the in-place sort
order, so the unsorted list is used).  `winners[0]` of an unresolved runoff
is `undefined` and crashes on `.date`; an unresolvable `find` likewise;
both are `none`. -/
def calculateStarBest (candidates : List Candidate) (duration : Nat) :
    Option StarResults :=
  let numTimeslots := duration / TIMESLOT_MINUTES
  if candidates.length = 0 then
    some { bestTime := none, nextBest := none, preferredFraction := none }
  else if candidates.length = 1 then
    some { bestTime := some
             { time := (candidates.getD 0 default).date
               score := (candidates.getD 0 default).score / (numTimeslots : ℚ) }
           nextBest := none
           preferredFraction := none }
  else
    match calculateFullRound 2 candidates
        [.score, .rankedRobin, .fiveStars, .random] with
    | none => none
    | some scoreRound =>
      match calculateFullRound 1 scoreRound.winners
          [.rankedRobin, .score, .fiveStars, .random] with
      | none => none
      | some runoffRound =>
        match runoffRound.winners.head? with
        | none => none
        | some winner =>
          let finalists := calculateRankedWins scoreRound.winners
          match finalists.find? (fun w => decide (w.date ≠ winner.date)) with
          | none => none
          | some second =>
            match getMetric winner .rankedRobin, getMetric second .rankedRobin with
            | some winnerRankedWins, some secondRankedWins =>
              let totalRankedWins := winnerRankedWins + secondRankedWins
              let preferredFraction :=
                if totalRankedWins = 0 then 0 else winnerRankedWins / totalRankedWins
              some { bestTime := some
                       { time := winner.date, score := winner.score / (numTimeslots : ℚ) }
                     nextBest := some
                       { time := second.date, score := second.score / (numTimeslots : ℚ) }
                     preferredFraction := some preferredFraction }
            | _, _ => none

/-- `calculateBestTime`: the full pipeline.  `performance.now` timing and
`console.log` do not influence the result and are omitted.  The seeded PRNG
is the parameter `seedrandom`: draw `i` of the generator seeded with the
event id string. -/
def calculateBestTime (times : List Time) (people : List PersonResponse)
    (duration : Nat) (eventId : String) (seedrandom : String → Nat → ℚ) :
    Option StarResults :=
  if people.length = 0 then
    some { bestTime := none, nextBest := none, preferredFraction := none }
  else
    let fullPeopleScores := replaceScoresWithFullScores times people duration
    let dateCollated := calculateAvailability times fullPeopleScores
    let candidates :=
      calculateSimpleCandidateMetrics dateCollated duration (seedrandom eventId)
    match removeOverlapsWithTopScorer candidates duration with
    | none => none
    | some candidates => calculateStarBest candidates duration

/-! ## Concrete inputs used by witnesses and counterexamples -/

def witnessCandA : Candidate :=
  { date := 0, people := [{ name := "ann", score := 3 }], score := 3,
    rankedWins := none, fiveStars := 0, randomTieValue := 1/4 }

def witnessCandB : Candidate :=
  { date := 60, people := [{ name := "bob", score := 2 }], score := 2,
    rankedWins := none, fiveStars := 0, randomTieValue := 1/2 }

def witnessCandC : Candidate :=
  { date := 120, people := [{ name := "cal", score := 1 }], score := 1,
    rankedWins := none, fiveStars := 0, randomTieValue := 3/4 }

/-- Helper to build a person from a sparse list of (time, score) pairs. -/
def mkPerson (nm : String) (l : List (Time × ℚ)) : PersonResponse :=
  { name := nm, availability := l.map (fun x => { time := x.1, score := x.2 }),
    created_at := 0 }

/-- A deterministic stand-in for the seeded generator used on concrete
inputs: draw `i` of any seed is `(i + 1) / 100`. -/
def fixedRng : String → Nat → ℚ := fun _ i => (i + 1 : ℚ) / 100

/-- Concrete input with exactly two candidate times (far apart). -/
def twoSlotTimes : List Time := [0, 120]

def twoSlotPeople : List PersonResponse :=
  [mkPerson "p0" [(0, 5), (120, 3)]]

/-- Concrete input on which the winner and the runner-up overlap: six
15-minute slots, meeting duration 30 minutes.  Slots 0/15/30 form one
cluster, 75/90/105 another; the four candidates 0, 15, 75 and 90 tie on
total score, candidate 15 wins the overlap-filter round and eliminates
candidates 0 and 30, after which the ranked-robin tiebreak among the
remaining tied candidates 15, 75 and 90 selects 75 and 90 — two mutually
overlapping windows — as the finalists. -/
def overlapTimes : List Time := [0, 15, 30, 75, 90, 105]

def overlapPeople : List PersonResponse :=
  [ mkPerson "p0" [(15, 1), (30, 1), (75, 2), (90, 1), (105, 2)]
  , mkPerson "p1" [(15, 2), (30, 1), (75, 1), (90, 1)]
  , mkPerson "p2" [(15, 2), (30, 2), (75, 2), (105, 1)]
  , mkPerson "p3" [(0, 2), (105, 2)]
  , mkPerson "p4" [(0, 2), (30, 1), (75, 2), (105, 2)]
  , mkPerson "p5" [(0, 2), (30, 1), (75, 2), (105, 2)] ]

/-- Reference (from the spec, 4.1) for the Duration Aggregator: the
candidate score at array position `idx` is the score at `idx` plus the sum
of the scores of all timeslots of the whole array strictly inside the open
window `(start, start + duration)`. -/
def naiveWindowScore (fullAvailability : List TimeScore) (idx : Nat) (duration : Nat) : ℚ :=
  let a := fullAvailability.getD idx default
  let range := (a.time, a.time + (duration : Int))
  a.score +
    ((fullAvailability.filter (fun a2 => timeInsideRange a2.time range)).map
      (fun c => c.score)).sum

/-- The score a named person gave in a people list; absent means 0 (the
collated lists persist only positive scores, so absence and zero
coincide). -/
def scoreOfName (nm : String) (l : List NameScore) : ℚ :=
  match l.find? (fun item => item.name = nm) with
  | some item => item.score
  | none => 0

/-! ## List lemmas for descending-sorted pools

Auxiliary facts about `filter`, `takeWhile` and pairwise-sorted lists used
to reason about mini rounds. -/

theorem filter_eq_takeWhile_of_pairwise {α : Type} {R : α → α → Prop} {p : α → Bool}
    (hmono : ∀ a b, R a b → p b = true → p a = true) :
    ∀ {l : List α}, l.Pairwise R → l.filter p = l.takeWhile p
  | [], _ => rfl
  | x :: xs, h => by
    rcases List.pairwise_cons.mp h with ⟨hx, hxs⟩
    by_cases hp : p x
    · simp only [List.filter_cons, List.takeWhile_cons, hp, if_true,
        filter_eq_takeWhile_of_pairwise hmono hxs]
    · have hnil : xs.filter p = [] :=
        List.filter_eq_nil_iff.mpr (fun a ha hpa => hp (hmono x a (hx a ha) hpa))
      simp only [List.filter_cons, List.takeWhile_cons, hp, if_false, hnil,
        Bool.false_eq_true]

theorem getD_takeWhile {α : Type} (p : α → Bool) :
    ∀ (l : List α) (i : Nat) (d : α), i < (l.takeWhile p).length →
      (l.takeWhile p).getD i d = l.getD i d
  | [], i, d, h => by simp at h
  | x :: xs, i, d, h => by
    by_cases hp : p x
    · cases i with
      | zero => simp [List.takeWhile_cons, hp]
      | succ n =>
        rw [List.takeWhile_cons, if_pos hp] at h ⊢
        simp only [List.getD_cons_succ]
        exact getD_takeWhile p xs n d (by simpa using h)
    · rw [List.takeWhile_cons, if_neg hp] at h
      simp at h

theorem takeWhile_getD_next_false {α : Type} (p : α → Bool) :
    ∀ (l : List α) (d : α), (l.takeWhile p).length < l.length →
      p (l.getD (l.takeWhile p).length d) = false
  | [], d, h => absurd h (by simp)
  | x :: xs, d, h => by
    by_cases hp : p x
    · rw [List.takeWhile_cons, if_pos hp] at h ⊢
      simpa using takeWhile_getD_next_false p xs d (by simpa using h)
    · rw [List.takeWhile_cons, if_neg hp]
      simpa using hp

theorem pairwise_getD {α : Type} {R : α → α → Prop} {l : List α} (h : l.Pairwise R)
    (i j : Nat) (d : α) (hij : i < j) (hj : j < l.length) : R (l.getD i d) (l.getD j d) := by
  rw [List.getD_eq_getElem l d (lt_trans hij hj), List.getD_eq_getElem l d hj]
  exact List.pairwise_iff_getElem.mp h i j (lt_trans hij hj) hj hij

theorem getD_mem_of_lt {α : Type} (l : List α) (i : Nat) (d : α) (h : i < l.length) :
    l.getD i d ∈ l := by
  rw [List.getD_eq_getElem l d h]
  exact List.getElem_mem h

theorem sorted_filter_gt_eq_takeWhile {α : Type} (f : α → ℚ) (c : ℚ) {s : List α}
    (hs : s.Pairwise (fun a b => f b ≤ f a)) :
    s.filter (fun x => decide (c < f x)) = s.takeWhile (fun x => decide (c < f x)) :=
  filter_eq_takeWhile_of_pairwise
    (fun a b hab hpb => by
      simp only [decide_eq_true_eq] at hpb ⊢
      exact lt_of_lt_of_le hpb hab) hs

theorem sorted_filter_gt_length_le {α : Type} (f : α → ℚ) {s : List α} {n : Nat} (d : α)
    (hs : s.Pairwise (fun a b => f b ≤ f a)) :
    (s.filter (fun x => decide (f (s.getD n d) < f x))).length ≤ n := by
  rw [sorted_filter_gt_eq_takeWhile _ _ hs]
  by_contra hlt
  push_neg at hlt
  have hgd := getD_takeWhile (fun x => decide (f (s.getD n d) < f x)) s n d hlt
  have hmem := getD_mem_of_lt _ n d hlt
  rw [hgd] at hmem
  have := List.mem_takeWhile_imp hmem
  simp only [decide_eq_true_eq] at this
  exact lt_irrefl _ this

theorem sorted_segment_eq {α : Type} (f : α → ℚ) {s : List α} {n : Nat} (d : α)
    (hs : s.Pairwise (fun a b => f b ≤ f a)) (hn : n < s.length) {i : Nat}
    (hki : (s.filter (fun x => decide (f (s.getD n d) < f x))).length ≤ i) (hin : i ≤ n) :
    f (s.getD i d) = f (s.getD n d) := by
  have hkn := sorted_filter_gt_length_le f d hs (s := s) (n := n)
  have hks : (s.filter (fun x => decide (f (s.getD n d) < f x))).length < s.length :=
    lt_of_le_of_lt hkn hn
  have htw : (s.filter (fun x => decide (f (s.getD n d) < f x))).length
      = (s.takeWhile (fun x => decide (f (s.getD n d) < f x))).length := by
    rw [sorted_filter_gt_eq_takeWhile _ _ hs]
  have hkfail : ¬ f (s.getD n d) <
      f (s.getD (s.filter (fun x => decide (f (s.getD n d) < f x))).length d) := by
    have := takeWhile_getD_next_false (fun x => decide (f (s.getD n d) < f x)) s d
      (by rw [← htw]; exact hks)
    rw [← htw] at this
    simpa using this
  have hupper : f (s.getD i d) ≤ f (s.getD n d) := by
    rcases Nat.eq_or_lt_of_le hki with heq | hlt
    · rw [heq] at hkfail
      exact le_of_not_lt hkfail
    · exact le_trans (pairwise_getD hs _ i d hlt (lt_of_le_of_lt hin hn))
        (le_of_not_lt hkfail)
  have hlower : f (s.getD n d) ≤ f (s.getD i d) := by
    rcases Nat.eq_or_lt_of_le hin with heq | hlt
    · rw [heq]
    · exact pairwise_getD hs i n d hlt hn
  exact le_antisymm hupper hlower

theorem sorted_tied_count {α : Type} (f : α → ℚ) {s : List α} {n : Nat} (d : α)
    (hs : s.Pairwise (fun a b => f b ≤ f a)) (hn : n < s.length) :
    n + 1 - (s.filter (fun x => decide (f (s.getD n d) < f x))).length
      ≤ (s.filter (fun x => decide (f x = f (s.getD n d)))).length := by
  obtain ⟨k, hkdef⟩ : ∃ k, (s.filter (fun x => decide (f (s.getD n d) < f x))).length = k :=
    ⟨_, rfl⟩
  rw [hkdef]
  have hkn : k ≤ n := hkdef ▸ sorted_filter_gt_length_le f d hs
  rw [← List.countP_eq_length_filter]
  have h1 : List.countP (fun x => decide (f x = f (s.getD n d))) (s.take (n + 1)) ≤
      List.countP (fun x => decide (f x = f (s.getD n d))) s :=
    (List.take_sublist _ _).countP_le _
  refine le_trans ?_ h1
  have htlen : (s.take (n + 1)).length = n + 1 := by
    rw [List.length_take]
    omega
  have h2 : List.countP (fun x => decide (f x = f (s.getD n d))) ((s.take (n + 1)).drop k) ≤
      List.countP (fun x => decide (f x = f (s.getD n d))) (s.take (n + 1)) :=
    (List.drop_sublist _ _).countP_le _
  refine le_trans ?_ h2
  have hdlen : ((s.take (n + 1)).drop k).length = n + 1 - k := by
    rw [List.length_drop, htlen]
  have hall : ∀ x ∈ (s.take (n + 1)).drop k, decide (f x = f (s.getD n d)) = true := by
    intro x hx
    rcases List.mem_iff_getElem.mp hx with ⟨i, hi, hgx⟩
    rw [hdlen] at hi
    have hik : k + i ≤ n := by omega
    have hkis : k + i < s.length := lt_of_le_of_lt hik hn
    have hgel : ((s.take (n + 1)).drop k)[i] = s[k + i] := by
      rw [List.getElem_drop (s.take (n + 1))]
      exact List.getElem_take s
    rw [hgel] at hgx
    have hseg := sorted_segment_eq f d hs hn (i := k + i) (by omega) hik
    rw [List.getD_eq_getElem s d hkis] at hseg
    rw [← hgx]
    simpa using hseg
  have heq : n + 1 - k
      = List.countP (fun x => decide (f x = f (s.getD n d))) ((s.take (n + 1)).drop k) := by
    rw [List.countP_eq_length.mpr hall, hdlen]
  exact le_of_eq heq

theorem sorted_filter_gt_length_eq {α : Type} (f : α → ℚ) {s : List α} {n : Nat} (d : α)
    (hs : s.Pairwise (fun a b => f b ≤ f a))
    (hne : s.Pairwise (fun a b => f a ≠ f b)) (hn : n < s.length) :
    (s.filter (fun x => decide (f (s.getD n d) < f x))).length = n := by
  have hle := sorted_filter_gt_length_le f d hs (s := s) (n := n)
  rcases Nat.eq_or_lt_of_le hle with heq | hlt
  · exact heq
  · exfalso
    have hks : (s.filter (fun x => decide (f (s.getD n d) < f x))).length < s.length :=
      lt_of_lt_of_le hlt (le_of_lt hn)
    have htw : (s.filter (fun x => decide (f (s.getD n d) < f x))).length
        = (s.takeWhile (fun x => decide (f (s.getD n d) < f x))).length := by
      rw [sorted_filter_gt_eq_takeWhile _ _ hs]
    have hkfail := takeWhile_getD_next_false (fun x => decide (f (s.getD n d) < f x)) s d
      (by rw [← htw]; exact hks)
    rw [← htw] at hkfail
    simp only [decide_eq_false_iff_not, not_lt] at hkfail
    have hlt2 : f (s.getD n d) < f (s.getD (s.filter
        (fun x => decide (f (s.getD n d) < f x))).length d) := by
      have hge := pairwise_getD hs _ n d hlt hn
      have hneq := pairwise_getD hne _ n d hlt hn
      exact lt_of_le_of_ne hge (Ne.symm hneq)
    exact absurd hkfail (not_le_of_lt hlt2)

/-! ## Structure of mini rounds -/

/-- The pool a mini round actually scores: ranked robin rounds first
recompute `rankedWins` over the candidates still under consideration. -/
def poolFor (candidates : List Candidate) (roundType : miniRoundType) : List Candidate :=
  if roundType = .rankedRobin then calculateRankedWins candidates else candidates

/-- The pool of a mini round sorted descending by the round's metric. -/
def sortedFor (candidates : List Candidate) (roundType : miniRoundType) : List Candidate :=
  (poolFor candidates roundType).insertionSort
    (fun a b => metricD b roundType ≤ metricD a roundType)

/-- The `scoreToBeat` of a mini round: the metric value at sorted index
`numWinners`. -/
def scoreToBeatFor (numWinners : Nat) (candidates : List Candidate)
    (roundType : miniRoundType) : ℚ :=
  metricD ((sortedFor candidates roundType).getD numWinners default) roundType

/-- The winners of a mini round: metric strictly above `scoreToBeat`. -/
def winnersFor (numWinners : Nat) (candidates : List Candidate)
    (roundType : miniRoundType) : List Candidate :=
  (sortedFor candidates roundType).filter
    (fun w => decide (scoreToBeatFor numWinners candidates roundType < metricD w roundType))

/-- The still-tied candidates of a mini round: empty if the round resolved,
otherwise those whose metric equals `scoreToBeat`. -/
def tiedFor (numWinners : Nat) (candidates : List Candidate)
    (roundType : miniRoundType) : List Candidate :=
  if (winnersFor numWinners candidates roundType).length = numWinners then []
  else (sortedFor candidates roundType).filter
    (fun w => decide (metricD w roundType = scoreToBeatFor numWinners candidates roundType))

theorem calculateRankedWins_length (l : List Candidate) :
    (calculateRankedWins l).length = l.length := by
  simp [calculateRankedWins]

theorem rankedWins_isSome_of_mem_calculateRankedWins {l : List Candidate} {c : Candidate}
    (hc : c ∈ calculateRankedWins l) : c.rankedWins.isSome = true := by
  unfold calculateRankedWins at hc
  rcases List.mem_map.mp hc with ⟨i, _, rfl⟩
  rfl

theorem getMetric_isSome_of_mem_poolFor {cands : List Candidate} {t : miniRoundType}
    {c : Candidate} (hc : c ∈ poolFor cands t) : (getMetric c t).isSome = true := by
  cases t with
  | rankedRobin =>
    unfold poolFor at hc
    rw [if_pos rfl] at hc
    have := rankedWins_isSome_of_mem_calculateRankedWins hc
    rcases Option.isSome_iff_exists.mp this with ⟨w, hw⟩
    unfold getMetric
    rw [hw]
    rfl
  | score => rfl
  | fiveStars => rfl
  | random => rfl

theorem poolFor_length (cands : List Candidate) (t : miniRoundType) :
    (poolFor cands t).length = cands.length := by
  unfold poolFor
  split
  · exact calculateRankedWins_length cands
  · rfl

theorem sortedFor_perm (cands : List Candidate) (t : miniRoundType) :
    (sortedFor cands t).Perm (poolFor cands t) :=
  List.perm_insertionSort _ _

theorem sortedFor_length (cands : List Candidate) (t : miniRoundType) :
    (sortedFor cands t).length = cands.length := by
  rw [(sortedFor_perm cands t).length_eq, poolFor_length]

theorem sortedFor_pairwise (cands : List Candidate) (t : miniRoundType) :
    (sortedFor cands t).Pairwise (fun a b => metricD b t ≤ metricD a t) := by
  haveI : IsTotal Candidate (fun a b => metricD b t ≤ metricD a t) :=
    ⟨fun a b => le_total (metricD b t) (metricD a t)⟩
  haveI : IsTrans Candidate (fun a b => metricD b t ≤ metricD a t) :=
    ⟨fun a b c h1 h2 => le_trans h2 h1⟩
  exact List.sorted_insertionSort _ _

theorem mem_sortedFor {cands : List Candidate} {t : miniRoundType} {c : Candidate} :
    c ∈ sortedFor cands t ↔ c ∈ poolFor cands t :=
  List.mem_insertionSort _

theorem winnersFor_length_le (numWinners : Nat) (cands : List Candidate)
    (t : miniRoundType) :
    (winnersFor numWinners cands t).length ≤ numWinners := by
  unfold winnersFor scoreToBeatFor
  exact sorted_filter_gt_length_le (fun c => metricD c t) default (sortedFor_pairwise cands t)

theorem tiedFor_count (numWinners : Nat) (cands : List Candidate) (t : miniRoundType)
    (h : numWinners < cands.length)
    (hne : (winnersFor numWinners cands t).length ≠ numWinners) :
    numWinners - (winnersFor numWinners cands t).length < (tiedFor numWinners cands t).length := by
  have hk := winnersFor_length_le numWinners cands t
  have hlt : (winnersFor numWinners cands t).length < numWinners := lt_of_le_of_ne hk hne
  have hn' : numWinners < (sortedFor cands t).length := by
    rw [sortedFor_length]; exact h
  have hcount := sorted_tied_count (fun c => metricD c t) default
    (sortedFor_pairwise cands t) hn'
  have hcount' : numWinners + 1 - (winnersFor numWinners cands t).length
      ≤ ((sortedFor cands t).filter
          (fun w => decide (metricD w t = scoreToBeatFor numWinners cands t))).length := by
    unfold winnersFor scoreToBeatFor
    exact hcount
  unfold tiedFor
  rw [if_neg hne]
  omega

theorem mem_winnersFor {numWinners : Nat} {cands : List Candidate} {t : miniRoundType}
    {c : Candidate} (hc : c ∈ winnersFor numWinners cands t) : c ∈ poolFor cands t :=
  mem_sortedFor.mp (List.mem_of_mem_filter hc)

theorem mem_tiedFor {numWinners : Nat} {cands : List Candidate} {t : miniRoundType}
    {c : Candidate} (hc : c ∈ tiedFor numWinners cands t) : c ∈ poolFor cands t := by
  unfold tiedFor at hc
  split at hc
  · simp at hc
  · exact mem_sortedFor.mp (List.mem_of_mem_filter hc)

/-- The result record of a mini round whose precondition holds. -/
def miniFor (numWinners : Nat) (cands : List Candidate) (t : miniRoundType) :
    MiniRoundResult :=
  { roundType := t, candidates := sortedFor cands t,
    winners := winnersFor numWinners cands t,
    tied := tiedFor numWinners cands t }

theorem poolFor_all_isSome (cands : List Candidate) (t : miniRoundType) :
    ((poolFor cands t).all (fun c => (getMetric c t).isSome)) = true :=
  List.all_eq_true.mpr (fun c hc => getMetric_isSome_of_mem_poolFor hc)

/-- Characterization of a mini round when its precondition holds. -/
theorem calculateMiniRound_eq (numWinners : Nat) (cands : List Candidate)
    (t : miniRoundType) (h : numWinners < cands.length) :
    calculateMiniRound numWinners cands t = some (miniFor numWinners cands t) := by
  unfold calculateMiniRound
  rw [if_neg (not_le.mpr h)]
  have hall := poolFor_all_isSome cands t
  unfold poolFor at hall
  simp only [hall, if_true]
  rfl

/-- A mini round that did not throw had its precondition satisfied and has
the characterized shape. -/
theorem calculateMiniRound_inv {numWinners : Nat} {cands : List Candidate}
    {t : miniRoundType} {r : MiniRoundResult}
    (h : calculateMiniRound numWinners cands t = some r) :
    numWinners < cands.length ∧ r = miniFor numWinners cands t := by
  rcases Nat.lt_or_ge numWinners cands.length with hlt | hge
  · refine ⟨hlt, ?_⟩
    rw [calculateMiniRound_eq numWinners cands t hlt] at h
    exact (Option.some_injective _ h).symm
  · exfalso
    unfold calculateMiniRound at h
    rw [if_pos hge] at h
    exact Option.noConfusion h

/-! ## Structure of full rounds -/

theorem fullRoundLoop_some :
    ∀ (ts : List miniRoundType) (numWinners : Nat) (winners cands : List Candidate),
      winners.length < numWinners → numWinners - winners.length < cands.length →
      ∃ rs w, fullRoundLoop numWinners winners cands ts = some (rs, w) ∧
        w.length ≤ numWinners ∧ ∃ extra, w = winners ++ extra
  | [], numWinners, winners, _cands, hw, _hc =>
    ⟨[], winners, rfl, le_of_lt hw, [], (List.append_nil winners).symm⟩
  | t :: ts, numWinners, winners, cands, hw, hc => by
    have hmini := calculateMiniRound_eq (numWinners - winners.length) cands t hc
    have hkle := winnersFor_length_le (numWinners - winners.length) cands t
    by_cases hres : (winners ++ winnersFor (numWinners - winners.length) cands t).length
        = numWinners
    · refine ⟨[miniFor (numWinners - winners.length) cands t],
        winners ++ winnersFor (numWinners - winners.length) cands t, ?_,
        le_of_eq hres, winnersFor (numWinners - winners.length) cands t, rfl⟩
      rw [fullRoundLoop, hmini]
      simp only [miniFor, hres, if_true]
    · have hlen : (winners ++ winnersFor (numWinners - winners.length) cands t).length
          = winners.length + (winnersFor (numWinners - winners.length) cands t).length :=
        List.length_append _ _
      have hw' : (winners ++ winnersFor (numWinners - winners.length) cands t).length
          < numWinners := by omega
      have hkne : (winnersFor (numWinners - winners.length) cands t).length
          ≠ numWinners - winners.length := by omega
      have htied := tiedFor_count (numWinners - winners.length) cands t hc hkne
      have hc' : numWinners -
          (winners ++ winnersFor (numWinners - winners.length) cands t).length
          < (tiedFor (numWinners - winners.length) cands t).length := by omega
      obtain ⟨rs, w, hloop, hwle, extra, hext⟩ :=
        fullRoundLoop_some ts numWinners
          (winners ++ winnersFor (numWinners - winners.length) cands t)
          (tiedFor (numWinners - winners.length) cands t) hw' hc'
      refine ⟨miniFor (numWinners - winners.length) cands t :: rs, w, ?_, hwle,
        winnersFor (numWinners - winners.length) cands t ++ extra, ?_⟩
      · rw [fullRoundLoop, hmini]
        simp only [miniFor] at hloop ⊢
        simp only [hres, if_false, hloop]
      · rw [hext, List.append_assoc]

/-- A full round that did not throw never returns more winners than were
accumulated plus allowed. -/
theorem fullRoundLoop_length_le :
    ∀ (ts : List miniRoundType) (numWinners : Nat) (winners cands : List Candidate)
      (rs : List MiniRoundResult) (w : List Candidate),
      winners.length ≤ numWinners →
      fullRoundLoop numWinners winners cands ts = some (rs, w) → w.length ≤ numWinners
  | [], _, _, _, _, _, hle, h => by
    rw [fullRoundLoop] at h
    rcases Option.some_injective _ h with h'
    rcases h' with ⟨rfl, rfl⟩
    exact hle
  | t :: ts, numWinners, winners, cands, rs, w, hle, h => by
    rw [fullRoundLoop] at h
    cases hm : calculateMiniRound (numWinners - winners.length) cands t with
    | none =>
      rw [hm] at h
      exact Option.noConfusion h
    | some r =>
      rw [hm] at h
      obtain ⟨hlt, rfl⟩ := calculateMiniRound_inv hm
      have hkle := winnersFor_length_le (numWinners - winners.length) cands t
      simp only [miniFor] at h
      by_cases hres : (winners ++ winnersFor (numWinners - winners.length) cands t).length
          = numWinners
      · rw [if_pos hres] at h
        rcases Option.some_injective _ h with h'
        rcases h' with ⟨rfl, rfl⟩
        exact le_of_eq hres
      · rw [if_neg hres] at h
        cases hloop : fullRoundLoop numWinners
            (winners ++ winnersFor (numWinners - winners.length) cands t)
            (tiedFor (numWinners - winners.length) cands t) ts with
        | none =>
          rw [hloop] at h
          exact Option.noConfusion h
        | some p =>
          rcases p with ⟨rs', w'⟩
          rw [hloop] at h
          rcases Option.some_injective _ h with h'
          rcases h' with ⟨rfl, rfl⟩
          have hlen : (winners ++ winnersFor (numWinners - winners.length) cands t).length
              = winners.length + (winnersFor (numWinners - winners.length) cands t).length :=
            List.length_append _ _
          exact fullRoundLoop_length_le ts numWinners _ _ _ _ (by omega) hloop

theorem datemap_calculateRankedWins (l : List Candidate) :
    (calculateRankedWins l).map (fun c => c.date) = l.map (fun c => c.date) := by
  apply List.ext_getElem
  · simp [calculateRankedWins_length]
  · intro i h1 h2
    simp only [List.length_map, calculateRankedWins_length] at h1
    simp only [List.getElem_map]
    unfold calculateRankedWins
    simp only [List.getElem_map, List.getElem_range,
      List.length_map, List.length_range]
    rw [List.getD_eq_getElem l default (by simpa using h1)]

theorem datemap_poolFor (cands : List Candidate) (t : miniRoundType) :
    (poolFor cands t).map (fun c => c.date) = cands.map (fun c => c.date) := by
  unfold poolFor
  split
  · exact datemap_calculateRankedWins cands
  · rfl

theorem date_mem_of_mem_poolFor {cands : List Candidate} {t : miniRoundType} {c : Candidate}
    (hc : c ∈ poolFor cands t) : c.date ∈ cands.map (fun x => x.date) := by
  rw [← datemap_poolFor cands t]
  exact List.mem_map_of_mem _ hc

theorem fullRoundLoop_dates :
    ∀ (ts : List miniRoundType) (numWinners : Nat) (winners cands : List Candidate)
      (rs : List MiniRoundResult) (w : List Candidate),
      fullRoundLoop numWinners winners cands ts = some (rs, w) →
      ∀ x ∈ w, x.date ∈ winners.map (fun c => c.date) ∨ x.date ∈ cands.map (fun c => c.date)
  | [], _, winners, _, _, _, h, x, hx => by
    rw [fullRoundLoop] at h
    rcases Option.some_injective _ h with h'
    rcases h' with ⟨rfl, rfl⟩
    exact Or.inl (List.mem_map_of_mem _ hx)
  | t :: ts, numWinners, winners, cands, rs, w, h, x, hx => by
    rw [fullRoundLoop] at h
    cases hm : calculateMiniRound (numWinners - winners.length) cands t with
    | none =>
      rw [hm] at h
      exact Option.noConfusion h
    | some r =>
      rw [hm] at h
      obtain ⟨hlt, rfl⟩ := calculateMiniRound_inv hm
      simp only [miniFor] at h
      have hwdates : ∀ y ∈ winners ++ winnersFor (numWinners - winners.length) cands t,
          y.date ∈ winners.map (fun c => c.date) ∨ y.date ∈ cands.map (fun c => c.date) := by
        intro y hy
        rcases List.mem_append.mp hy with hy1 | hy2
        · exact Or.inl (List.mem_map_of_mem _ hy1)
        · exact Or.inr (date_mem_of_mem_poolFor (mem_winnersFor hy2))
      by_cases hres : (winners ++ winnersFor (numWinners - winners.length) cands t).length
          = numWinners
      · rw [if_pos hres] at h
        rcases Option.some_injective _ h with h'
        rcases h' with ⟨rfl, rfl⟩
        exact hwdates x hx
      · rw [if_neg hres] at h
        cases hloop : fullRoundLoop numWinners
            (winners ++ winnersFor (numWinners - winners.length) cands t)
            (tiedFor (numWinners - winners.length) cands t) ts with
        | none =>
          rw [hloop] at h
          exact Option.noConfusion h
        | some p =>
          rcases p with ⟨rs', w'⟩
          rw [hloop] at h
          rcases Option.some_injective _ h with h'
          rcases h' with ⟨rfl, rfl⟩
          rcases fullRoundLoop_dates ts numWinners _ _ _ _ hloop x hx with hd | hd
          · rw [List.map_append] at hd
            rcases List.mem_append.mp hd with hd1 | hd2
            · exact Or.inl hd1
            · rcases List.mem_map.mp hd2 with ⟨y, hy, hyd⟩
              rw [← hyd]
              exact Or.inr (date_mem_of_mem_poolFor (mem_winnersFor hy))
          · rcases List.mem_map.mp hd with ⟨y, hy, hyd⟩
            rw [← hyd]
            exact Or.inr (date_mem_of_mem_poolFor (mem_tiedFor hy))

theorem poolFor_of_ne_rankedRobin {cands : List Candidate} {t : miniRoundType}
    (ht : t ≠ .rankedRobin) : poolFor cands t = cands := by
  unfold poolFor
  rw [if_neg ht]

/-- In a full round whose remaining mini rounds are not ranked robin, the
candidate records are passed through unchanged, so every final winner is one
of the accumulated winners or one of the current candidates. -/
theorem fullRoundLoop_mem_of_no_rankedRobin :
    ∀ (ts : List miniRoundType) (numWinners : Nat) (winners cands : List Candidate)
      (rs : List MiniRoundResult) (w : List Candidate),
      (∀ t ∈ ts, t ≠ miniRoundType.rankedRobin) →
      fullRoundLoop numWinners winners cands ts = some (rs, w) →
      ∀ x ∈ w, x ∈ winners ∨ x ∈ cands
  | [], _, _, _, _, _, _, h, x, hx => by
    rw [fullRoundLoop] at h
    rcases Option.some_injective _ h with h'
    rcases h' with ⟨rfl, rfl⟩
    exact Or.inl hx
  | t :: ts, numWinners, winners, cands, rs, w, hts, h, x, hx => by
    have ht : t ≠ miniRoundType.rankedRobin := hts t (List.mem_cons_self t ts)
    have hpool : poolFor cands t = cands := poolFor_of_ne_rankedRobin ht
    rw [fullRoundLoop] at h
    cases hm : calculateMiniRound (numWinners - winners.length) cands t with
    | none =>
      rw [hm] at h
      exact Option.noConfusion h
    | some r =>
      rw [hm] at h
      obtain ⟨hlt, rfl⟩ := calculateMiniRound_inv hm
      simp only [miniFor] at h
      have hmemw : ∀ y ∈ winners ++ winnersFor (numWinners - winners.length) cands t,
          y ∈ winners ∨ y ∈ cands := by
        intro y hy
        rcases List.mem_append.mp hy with hy1 | hy2
        · exact Or.inl hy1
        · exact Or.inr (hpool ▸ mem_winnersFor hy2)
      by_cases hres : (winners ++ winnersFor (numWinners - winners.length) cands t).length
          = numWinners
      · rw [if_pos hres] at h
        rcases Option.some_injective _ h with h'
        rcases h' with ⟨rfl, rfl⟩
        exact hmemw x hx
      · rw [if_neg hres] at h
        cases hloop : fullRoundLoop numWinners
            (winners ++ winnersFor (numWinners - winners.length) cands t)
            (tiedFor (numWinners - winners.length) cands t) ts with
        | none =>
          rw [hloop] at h
          exact Option.noConfusion h
        | some p =>
          rcases p with ⟨rs', w'⟩
          rw [hloop] at h
          rcases Option.some_injective _ h with h'
          rcases h' with ⟨rfl, rfl⟩
          rcases fullRoundLoop_mem_of_no_rankedRobin ts numWinners _ _ _ _
              (fun u hu => hts u (List.mem_cons_of_mem t hu)) hloop x hx with hd | hd
          · exact hmemw x hd
          · exact Or.inr (hpool ▸ mem_tiedFor hd)

/-- `calculateRankedWins` on a two-candidate pool stores exactly the 1-on-1
matchup counts. -/
theorem calculateRankedWins_pair (a b : Candidate) :
    calculateRankedWins [a, b] =
      [{ a with rankedWins := some (calculateRankedWinsBetweenPair a.people b.people) },
       { b with rankedWins := some (calculateRankedWinsBetweenPair b.people a.people) }] := by
  unfold calculateRankedWins
  norm_num [List.range_succ]

/-! ## Claim theorems -/

/-- C2: a full round invoked with target winner count `N` and candidate
pool `C`, `0 < N < |C|`, never throws: every mini round it runs satisfies
the mini-round precondition (the model returns `none` exactly when a mini
round's precondition fault or metric fault would throw, so a `some` result
means the fatal error is unreachable throughout), and the returned winners
list never contains more than `N` candidates. -/
theorem c2_full_round_safe (numWinners : Nat) (cands : List Candidate)
    (miniRounds : List miniRoundType) (h0 : 0 < numWinners)
    (h : numWinners < cands.length) :
    ∃ res, calculateFullRound numWinners cands miniRounds = some res ∧
      res.winners.length ≤ numWinners := by
  obtain ⟨rs, w, hloop, hle, _⟩ := fullRoundLoop_some miniRounds numWinners [] cands
    (by simpa using h0) (by simpa using h)
  refine ⟨{ candidates := cands, rounds := rs, winners := w }, ?_, hle⟩
  unfold calculateFullRound
  rw [hloop]

theorem c2_full_round_safe_witness :
    ∃ res, calculateFullRound 1 [witnessCandA, witnessCandB] [.score] = some res ∧
      res.winners.length ≤ 1 :=
  c2_full_round_safe 1 [witnessCandA, witnessCandB] [.score] (by decide) (by decide)

/-- C1: a mini round run on a pool with `0 < numWinners < |pool|` succeeds;
after the stable descending sort of the (ranked-robin-refreshed) pool by
the round's metric, `scoreToBeat` is the metric value at sorted index
`numWinners` (this is `scoreToBeatFor`); the winners are exactly the pool
candidates whose metric strictly exceeds `scoreToBeat`; when the number of
winners equals `numWinners` the tied list is empty, and otherwise the tied
list is exactly the pool candidates whose metric equals `scoreToBeat`. -/
theorem c1_mini_round_characterization (numWinners : Nat) (cands : List Candidate)
    (t : miniRoundType) (_h0 : 0 < numWinners) (h : numWinners < cands.length) :
    ∃ r, calculateMiniRound numWinners cands t = some r ∧
      r.candidates = sortedFor cands t ∧
      (∀ x, x ∈ r.winners ↔
        x ∈ poolFor cands t ∧ scoreToBeatFor numWinners cands t < metricD x t) ∧
      (r.winners.length = numWinners → r.tied = []) ∧
      (r.winners.length ≠ numWinners → ∀ x, x ∈ r.tied ↔
        x ∈ poolFor cands t ∧ metricD x t = scoreToBeatFor numWinners cands t) := by
  refine ⟨miniFor numWinners cands t, calculateMiniRound_eq numWinners cands t h, rfl, ?_, ?_, ?_⟩
  · intro x
    show x ∈ winnersFor numWinners cands t ↔ _
    unfold winnersFor
    rw [List.mem_filter, mem_sortedFor]
    simp only [decide_eq_true_eq]
  · intro hres
    simp only [miniFor] at hres
    show tiedFor numWinners cands t = []
    unfold tiedFor
    rw [if_pos hres]
  · intro hres x
    simp only [miniFor] at hres
    show x ∈ tiedFor numWinners cands t ↔ _
    unfold tiedFor
    rw [if_neg hres, List.mem_filter, mem_sortedFor]
    simp only [decide_eq_true_eq]

theorem c1_mini_round_characterization_witness :
    ∃ r, calculateMiniRound 1 [witnessCandA, witnessCandB] .score = some r ∧
      r.candidates = sortedFor [witnessCandA, witnessCandB] .score ∧
      (∀ x, x ∈ r.winners ↔
        x ∈ poolFor [witnessCandA, witnessCandB] .score ∧
          scoreToBeatFor 1 [witnessCandA, witnessCandB] .score < metricD x .score) ∧
      (r.winners.length = 1 → r.tied = []) ∧
      (r.winners.length ≠ 1 → ∀ x, x ∈ r.tied ↔
        x ∈ poolFor [witnessCandA, witnessCandB] .score ∧
          metricD x .score = scoreToBeatFor 1 [witnessCandA, witnessCandB] .score) :=
  c1_mini_round_characterization 1 [witnessCandA, witnessCandB] .score (by decide) (by decide)

/-- C10: an empty people list yields the all-`undefined` result; zero
surviving candidates yield the all-`undefined` result; exactly one
surviving candidate is returned as the best time with normalized score
`score / numTimeslots` and no next-best and no preference fraction. -/
theorem c10_degenerate_results :
    (∀ (times : List Time) (duration : Nat) (eventId : String)
        (seedrandom : String → Nat → ℚ),
      calculateBestTime times [] duration eventId seedrandom =
        some { bestTime := none, nextBest := none, preferredFraction := none }) ∧
    (∀ duration : Nat, calculateStarBest [] duration =
        some { bestTime := none, nextBest := none, preferredFraction := none }) ∧
    (∀ (c : Candidate) (duration : Nat), calculateStarBest [c] duration =
        some { bestTime := some ⟨c.date, c.score / ((duration / TIMESLOT_MINUTES : Nat) : ℚ)⟩,
               nextBest := none, preferredFraction := none }) :=
  ⟨fun _ _ _ _ => rfl, fun _ => rfl, fun _ _ => rfl⟩

section ConcreteEvaluation

/- `Rat.add`, `Rat.mul`, `Rat.inv` and `Rat.sub` are `@[irreducible]`,
which blocks `decide` from evaluating concrete runs of the engine; their
unfolding is restored locally for the concrete theorems below. -/
attribute [local semireducible] Rat.add Rat.mul Rat.inv Rat.sub

/-- C9: the engine is deterministic — identical inputs give identical
results (the model is pure: the source's only impure operations, timing and
logging, do not flow into the result, and the seeded generator is a pure
function of the seed and draw order) — and candidate `i`'s
`randomTieValue` is exactly draw `i` of the generator seeded with the
event id: one draw per candidate, in fixed index order. -/
theorem c9_determinism_and_random_draws (times : List Time) (people : List PersonResponse)
    (duration : Nat) (eventId : String) (seedrandom : String → Nat → ℚ) :
    (∀ (times2 : List Time) (people2 : List PersonResponse) (duration2 : Nat)
        (eventId2 : String),
      times2 = times → people2 = people → duration2 = duration → eventId2 = eventId →
      calculateBestTime times2 people2 duration2 eventId2 seedrandom =
        calculateBestTime times people duration eventId seedrandom) ∧
    (∀ (avails : List Availability) (i : Nat), i < avails.length →
      ((calculateSimpleCandidateMetrics avails duration (seedrandom eventId)).getD i
          default).randomTieValue = seedrandom eventId i) := by
  constructor
  · intro times2 people2 duration2 eventId2 h1 h2 h3 h4
    rw [h1, h2, h3, h4]
  · intro avails i hi
    unfold calculateSimpleCandidateMetrics
    rw [List.getD_eq_getElem _ _ (by simpa using hi)]
    simp

theorem c9_determinism_and_random_draws_witness :
    (∀ (times2 : List Time) (people2 : List PersonResponse) (duration2 : Nat)
        (eventId2 : String),
      times2 = twoSlotTimes → people2 = twoSlotPeople → duration2 = 30 →
      eventId2 = "event" →
      calculateBestTime times2 people2 duration2 eventId2 fixedRng =
        calculateBestTime twoSlotTimes twoSlotPeople 30 "event" fixedRng) ∧
    (∀ (avails : List Availability) (i : Nat), i < avails.length →
      ((calculateSimpleCandidateMetrics avails 30 (fixedRng "event")).getD i
          default).randomTieValue = fixedRng "event" i) :=
  c9_determinism_and_random_draws twoSlotTimes twoSlotPeople 30 "event" fixedRng

/-- C3 (code fault): with exactly two surviving candidates the Result
Selector's scoring round requests 2 winners from a 2-candidate pool; this
violates `calculateMiniRound`'s own precondition (`numWinners >=
candidates.length` throws) and the computation aborts (`none` models the
throw) instead of returning the promised best time and runner-up. -/
theorem c3_two_candidate_pool_throws :
    calculateBestTime twoSlotTimes twoSlotPeople 30 "event" fixedRng = none ∧
    calculateStarBest
      (calculateSimpleCandidateMetrics
        (calculateAvailability twoSlotTimes
          (replaceScoresWithFullScores twoSlotTimes twoSlotPeople 30)) 30
        (fixedRng "event")) 30 = none := by
  exact ⟨by decide, by decide⟩

/-- C4 (counterexample): on `overlapTimes`/`overlapPeople` the engine
returns best time 75 and runner-up 90 with duration 30, whose windows
`[75, 105)` and `[90, 120)` overlap — the runner-up's start lies strictly
inside the winner's window — refuting the claim that the two windows never
overlap. -/
theorem c4_counterexample :
    ∃ r bt nb, calculateBestTime overlapTimes overlapPeople 30 "event" fixedRng = some r ∧
      r.bestTime = some bt ∧ r.nextBest = some nb ∧
      timeInsideRange nb.time (bt.time, bt.time + 30) = true := by
  refine ⟨⟨some ⟨75, 11/2⟩, some ⟨90, 11/2⟩, some (2/3)⟩, ⟨75, 11/2⟩, ⟨90, 11/2⟩,
    by decide, rfl, rfl, by decide⟩

end ConcreteEvaluation

/-- On a strictly sorted list of grid-aligned slots, positions `k` apart
are at least `15 * k` minutes apart. -/
theorem grid_sorted_getD_gap (l : List TimeScore)
    (hsort : l.Pairwise (fun a b => a.time < b.time))
    (hgrid : ∀ x ∈ l, (TIMESLOT_MINUTES : Int) ∣ x.time) :
    ∀ (k i : Nat), i + k < l.length →
      (l.getD i default).time + (TIMESLOT_MINUTES : Int) * k ≤ (l.getD (i + k) default).time := by
  intro k
  induction k with
  | zero =>
    intro i h
    simp
  | succ k ih =>
    intro i h
    have hk : i + k < l.length := by omega
    have ihk := ih i hk
    have hlt : (l.getD (i + k) default).time < (l.getD (i + k + 1) default).time :=
      pairwise_getD hsort (i + k) (i + k + 1) default (by omega) (by omega)
    have hd1 : (TIMESLOT_MINUTES : Int) ∣ (l.getD (i + k) default).time :=
      hgrid _ (getD_mem_of_lt l (i + k) default hk)
    have hd2 : (TIMESLOT_MINUTES : Int) ∣ (l.getD (i + k + 1) default).time :=
      hgrid _ (getD_mem_of_lt l (i + k + 1) default (by omega))
    have hdvd : (TIMESLOT_MINUTES : Int) ∣
        ((l.getD (i + k + 1) default).time - (l.getD (i + k) default).time) :=
      Int.dvd_sub hd2 hd1
    have hstep : (l.getD (i + k) default).time + (TIMESLOT_MINUTES : Int)
        ≤ (l.getD (i + k + 1) default).time := by
      have hpos : 0 < (l.getD (i + k + 1) default).time - (l.getD (i + k) default).time :=
        sub_pos.mpr hlt
      have hle := Int.le_of_dvd hpos hdvd
      linarith
    have hgoal : i + (k + 1) = (i + k) + 1 := by omega
    rw [hgoal]
    push_cast
    linarith

/-- C6: on a chronologically sorted, duplicate-free (strictly increasing),
grid-aligned dense slot array, the Duration Aggregator's bounded lookahead
of `duration / 15` array positions after each start index computes exactly
the naive per-candidate score that filters the entire slot array by the
open window — the bounded lookahead loses nothing. -/
theorem c6_bounded_lookahead_equals_naive (slots : List TimeScore) (idx : Nat)
    (duration : Nat)
    (hsort : slots.Pairwise (fun a b => a.time < b.time))
    (hgrid : ∀ x ∈ slots, (TIMESLOT_MINUTES : Int) ∣ x.time)
    (hdur : TIMESLOT_MINUTES ∣ duration)
    (hidx : idx < slots.length) :
    windowScore slots idx duration = naiveWindowScore slots idx duration := by
  have hdurcast : (TIMESLOT_MINUTES : Int) * ((duration / TIMESLOT_MINUTES : Nat) : Int)
      = (duration : Int) := by
    have h := Nat.mul_div_cancel' hdur
    exact_mod_cast h
  set P : TimeScore → Bool := fun a2 => timeInsideRange a2.time
    ((slots.getD idx default).time, (slots.getD idx default).time + (duration : Int)) with hP
  have h1 : (slots.take idx).filter P = [] := by
    rw [List.filter_eq_nil_iff]
    intro x hx hpx
    rcases List.mem_iff_getElem.mp hx with ⟨j, hj, rfl⟩
    have hjlen : j < idx := by
      have := hj
      rw [List.length_take] at this
      omega
    simp only [hP, timeInsideRange, Bool.and_eq_true, decide_eq_true_eq] at hpx
    have hgt : (slots.getD idx default).time < ((slots.take idx)[j]).time := hpx.1
    have hlt2 : ((slots.take idx)[j]).time < (slots.getD idx default).time := by
      have hje : (slots.take idx)[j] = slots[j] :=
        List.getElem_take slots
      rw [hje, ← List.getD_eq_getElem slots default (lt_trans hjlen hidx)]
      exact pairwise_getD hsort j idx default hjlen hidx
    exact absurd hgt (not_lt_of_lt hlt2)
  have h2 : ((slots.drop idx).drop (duration / TIMESLOT_MINUTES)).filter P = [] := by
    rw [List.filter_eq_nil_iff]
    intro x hx hpx
    rw [List.drop_drop] at hx
    rcases List.mem_iff_getElem.mp hx with ⟨j, hj, rfl⟩
    have hlen : idx + duration / TIMESLOT_MINUTES + j < slots.length := by
      have := hj
      rw [List.length_drop] at this
      omega
    have hje : ((slots.drop (idx + duration / TIMESLOT_MINUTES))[j])
        = slots[idx + duration / TIMESLOT_MINUTES + j] :=
      List.getElem_drop slots
    have hgap := grid_sorted_getD_gap slots hsort hgrid (duration / TIMESLOT_MINUTES + j) idx
      (by omega)
    rw [← Nat.add_assoc] at hgap
    have hub : (slots.getD idx default).time + (duration : Int)
        ≤ (slots.getD (idx + duration / TIMESLOT_MINUTES + j) default).time := by
      have hcast : ((duration / TIMESLOT_MINUTES + j : Nat) : Int)
          = ((duration / TIMESLOT_MINUTES : Nat) : Int) + (j : Int) := by
        push_cast
        ring
      rw [hcast] at hgap
      have hjq : (0 : Int) ≤ (j : Int) := Int.natCast_nonneg j
      nlinarith [hgap, hdurcast]
    simp only [hP, timeInsideRange, Bool.and_eq_true, decide_eq_true_eq] at hpx
    have hlt : ((slots.drop (idx + duration / TIMESLOT_MINUTES))[j]).time
        < (slots.getD idx default).time + (duration : Int) := hpx.2
    rw [hje, ← List.getD_eq_getElem slots default hlen] at hlt
    exact absurd hlt (not_lt_of_le hub)
  have hfull : slots.filter P
      = ((slots.drop idx).take (duration / TIMESLOT_MINUTES)).filter P := by
    conv_lhs => rw [← List.take_append_drop idx slots]
    rw [List.filter_append, h1, List.nil_append]
    conv_lhs => rw [← List.take_append_drop (duration / TIMESLOT_MINUTES) (slots.drop idx)]
    rw [List.filter_append, h2, List.append_nil]
  simp only [windowScore, naiveWindowScore]
  rw [hP] at hfull
  rw [hfull]

theorem c6_bounded_lookahead_equals_naive_witness :
    windowScore [({ time := 0, score := 5 } : TimeScore), { time := 15, score := 3 },
        { time := 30, score := 1 }] 0 30
      = naiveWindowScore [({ time := 0, score := 5 } : TimeScore), { time := 15, score := 3 },
        { time := 30, score := 1 }] 0 30 :=
  c6_bounded_lookahead_equals_naive
    [{ time := 0, score := 5 }, { time := 15, score := 3 }, { time := 30, score := 1 }]
    0 30 (by decide) (by decide) (by decide) (by decide)

theorem scoreOfName_nonneg (nm : String) (l : List NameScore)
    (hl : ∀ q ∈ l, 0 < q.score) : 0 ≤ scoreOfName nm l := by
  unfold scoreOfName
  cases hfind : l.find? (fun item => item.name = nm) with
  | none => exact le_refl 0
  | some q => exact le_of_lt (hl q (List.mem_of_find?_eq_some hfind))

theorem scoreOfName_self {a : List NameScore} {p : NameScore}
    (hna : (a.map (fun x => x.name)).Nodup) (hp : p ∈ a) :
    scoreOfName p.name a = p.score := by
  induction a with
  | nil => exact absurd hp (List.not_mem_nil p)
  | cons x xs ih =>
    rw [List.map_cons] at hna
    rcases List.nodup_cons.mp hna with ⟨hxn, hxs⟩
    unfold scoreOfName
    by_cases hx : x.name = p.name
    · rw [List.find?_cons_of_pos xs (by simpa using hx)]
      rcases List.mem_cons.mp hp with rfl | hmem
      · rfl
      · exact absurd (hx ▸ List.mem_map_of_mem (fun q => q.name) hmem) hxn
    · rw [List.find?_cons_of_neg xs (by simpa using hx)]
      rcases List.mem_cons.mp hp with rfl | hmem
      · exact absurd rfl hx
      · have hres := ih hxs hmem
        unfold scoreOfName at hres
        exact hres

theorem countP_eq_of_nodup (S T : List String) (q : String → Bool)
    (hS : S.Nodup) (hT : T.Nodup) (hsub : ∀ x ∈ T, x ∈ S)
    (hq : ∀ x, q x = true → x ∈ T) : S.countP q = T.countP q := by
  rw [List.countP_eq_length_filter, List.countP_eq_length_filter]
  apply List.Perm.length_eq
  apply List.perm_of_nodup_nodup_toFinset_eq (hS.filter q) (hT.filter q)
  ext x
  simp only [List.mem_toFinset, List.mem_filter]
  constructor
  · rintro ⟨_, hxq⟩
    exact ⟨hq x hxq, hxq⟩
  · rintro ⟨hxT, hxq⟩
    exact ⟨hsub x hxT, hxq⟩

theorem winsBetween_eq_countP_names (a b : List NameScore) (S : List String)
    (ha : ∀ p ∈ a, 0 < p.score) (hb : ∀ q ∈ b, 0 < q.score)
    (hna : (a.map (fun p => p.name)).Nodup) (hS : S.Nodup)
    (haS : ∀ p ∈ a, p.name ∈ S) :
    calculateRankedWinsBetweenPair a b
      = S.countP (fun nm => decide (scoreOfName nm b < scoreOfName nm a)) := by
  unfold calculateRankedWinsBetweenPair
  rw [← List.countP_eq_length_filter]
  have step1 : List.countP (fun aNameScore =>
      match b.find? (fun p => p.name = aNameScore.name) with
      | none => true
      | some bNameScore => decide (bNameScore.score < aNameScore.score)) a
      = List.countP (fun p => decide (scoreOfName p.name b < p.score)) a := by
    apply List.countP_congr
    intro p hp
    unfold scoreOfName
    cases hfind : b.find? (fun item => item.name = p.name) with
    | none =>
      simp only [hfind]
      simpa using ha p hp
    | some q =>
      simp only [hfind]
  have step2 : List.countP (fun p => decide (scoreOfName p.name b < p.score)) a
      = List.countP (fun p => decide (scoreOfName p.name b < scoreOfName p.name a)) a := by
    apply List.countP_congr
    intro p hp
    rw [scoreOfName_self hna hp]
  have step3 : List.countP (fun p => decide (scoreOfName p.name b < scoreOfName p.name a)) a
      = (a.map (fun p => p.name)).countP
          (fun nm => decide (scoreOfName nm b < scoreOfName nm a)) := by
    rw [List.countP_map]
    rfl
  have step4 : S.countP (fun nm => decide (scoreOfName nm b < scoreOfName nm a))
      = (a.map (fun p => p.name)).countP
          (fun nm => decide (scoreOfName nm b < scoreOfName nm a)) := by
    apply countP_eq_of_nodup _ _ _ hS hna
    · intro x hx
      rcases List.mem_map.mp hx with ⟨p, hp, rfl⟩
      exact haS p hp
    · intro nm hnm
      simp only [decide_eq_true_eq] at hnm
      have hpos : 0 < scoreOfName nm a :=
        lt_of_le_of_lt (scoreOfName_nonneg nm b hb) hnm
      unfold scoreOfName at hpos
      cases hfind : a.find? (fun item => item.name = nm) with
      | none =>
        rw [hfind] at hpos
        exact absurd hpos (lt_irrefl 0)
      | some q =>
        have hqa : q ∈ a := List.mem_of_find?_eq_some hfind
        have hqn : q.name = nm := by simpa using List.find?_some hfind
        exact hqn ▸ List.mem_map_of_mem (fun p => p.name) hqa
  rw [step1, step2, step3, step4]

/-- C7: in a ranked-robin pairwise tally over any duplicate-free universe
of people containing everyone who scored, a person contributes one win to
`A` exactly when their (absence-is-zero) score for `A` strictly exceeds
their score for `B` — which encodes "strictly higher, or `B` absent/zero
while `A` present and nonzero" since stored scores are positive — and a
person whose score is absent/zero for both sides satisfies neither
direction's predicate, so neither candidate gains a win point from them. -/
theorem c7_ranked_pair_win_semantics (a b : List NameScore) (S : List String)
    (ha : ∀ p ∈ a, 0 < p.score) (hb : ∀ q ∈ b, 0 < q.score)
    (hna : (a.map (fun p => p.name)).Nodup) (hnb : (b.map (fun p => p.name)).Nodup)
    (hS : S.Nodup) (haS : ∀ p ∈ a, p.name ∈ S) (hbS : ∀ q ∈ b, q.name ∈ S) :
    calculateRankedWinsBetweenPair a b
        = S.countP (fun nm => decide (scoreOfName nm b < scoreOfName nm a)) ∧
    calculateRankedWinsBetweenPair b a
        = S.countP (fun nm => decide (scoreOfName nm a < scoreOfName nm b)) ∧
    ∀ nm, scoreOfName nm a = 0 → scoreOfName nm b = 0 →
      ¬ (scoreOfName nm b < scoreOfName nm a) ∧ ¬ (scoreOfName nm a < scoreOfName nm b) := by
  refine ⟨winsBetween_eq_countP_names a b S ha hb hna hS haS,
    winsBetween_eq_countP_names b a S hb ha hnb hS hbS, ?_⟩
  intro nm h0a h0b
  rw [h0a, h0b]
  exact ⟨lt_irrefl 0, lt_irrefl 0⟩

theorem c7_ranked_pair_win_semantics_witness :
    calculateRankedWinsBetweenPair [{ name := "ann", score := 4 }]
        [{ name := "bob", score := 2 }]
      = (["ann", "bob"].countP (fun nm =>
          decide (scoreOfName nm [{ name := "bob", score := 2 }]
            < scoreOfName nm [{ name := "ann", score := 4 }]))) ∧
    calculateRankedWinsBetweenPair [{ name := "bob", score := 2 }]
        [{ name := "ann", score := 4 }]
      = (["ann", "bob"].countP (fun nm =>
          decide (scoreOfName nm [{ name := "ann", score := 4 }]
            < scoreOfName nm [{ name := "bob", score := 2 }]))) ∧
    (∀ nm, scoreOfName nm [{ name := "ann", score := 4 }] = 0 →
      scoreOfName nm [{ name := "bob", score := 2 }] = 0 →
      ¬ (scoreOfName nm [{ name := "bob", score := 2 }]
          < scoreOfName nm [{ name := "ann", score := 4 }]) ∧
      ¬ (scoreOfName nm [{ name := "ann", score := 4 }]
          < scoreOfName nm [{ name := "bob", score := 2 }])) :=
  c7_ranked_pair_win_semantics [{ name := "ann", score := 4 }]
    [{ name := "bob", score := 2 }] ["ann", "bob"]
    (by decide) (by decide) (by decide) (by decide) (by decide) (by decide) (by decide)

theorem calculateFullRound_inv {numWinners : Nat} {cands : List Candidate}
    {ts : List miniRoundType} {fr : FullRoundResult}
    (h : calculateFullRound numWinners cands ts = some fr) :
    fr.candidates = cands ∧ ∃ rs, fullRoundLoop numWinners [] cands ts = some (rs, fr.winners) := by
  unfold calculateFullRound at h
  rcases fr with ⟨fc, frs, fw⟩
  cases hloop : fullRoundLoop numWinners [] cands ts with
  | none =>
    rw [hloop] at h
    exact Option.noConfusion h
  | some p =>
    rcases p with ⟨rs, w⟩
    rw [hloop] at h
    have h' := Option.some_injective _ h
    injection h' with h1 h2 h3
    subst h1
    subst h2
    subst h3
    exact ⟨rfl, rs, rfl⟩

/-- C5: the Overlap Filter leaves pools of at most two candidates untouched
(it runs only when more than two remain); with more than two, it keeps
exactly the candidates whose window start and window end do not fall
strictly inside the top scorer's window `[start, start + duration)`
(boundary-equal bounds are retained), and in particular a candidate
carrying the top scorer's own date is always retained. -/
theorem c5_overlap_filter (cands : List Candidate) (duration : Nat) :
    (cands.length ≤ 2 → removeOverlapsWithTopScorer cands duration = some cands) ∧
    (2 < cands.length → ∀ out, removeOverlapsWithTopScorer cands duration = some out →
      ∃ fr top,
        calculateFullRound 1 cands [.score, .rankedRobin, .fiveStars, .random] = some fr ∧
        fr.winners.head? = some top ∧
        (∀ x, x ∈ out ↔ x ∈ cands ∧
          ¬(timeInsideRange x.date (top.date, top.date + (duration : Int)) = true ∨
            timeInsideRange (x.date + (duration : Int))
              (top.date, top.date + (duration : Int)) = true)) ∧
        ∃ c ∈ out, c.date = top.date) := by
  constructor
  · intro hle
    unfold removeOverlapsWithTopScorer
    rw [if_neg (not_lt.mpr hle)]
  · intro hlen out hout
    unfold removeOverlapsWithTopScorer at hout
    rw [if_pos hlen] at hout
    cases hfr : calculateFullRound 1 cands [.score, .rankedRobin, .fiveStars, .random] with
    | none =>
      rw [hfr] at hout
      exact Option.noConfusion hout
    | some fr =>
      rw [hfr] at hout
      simp only [] at hout
      cases htop : fr.winners.head? with
      | none =>
        rw [htop] at hout
        exact Option.noConfusion hout
      | some top =>
        rw [htop] at hout
        have hout' := Option.some_injective _ hout
        have hmem : ∀ x, x ∈ out ↔ x ∈ cands ∧
            ¬(timeInsideRange x.date (top.date, top.date + (duration : Int)) = true ∨
              timeInsideRange (x.date + (duration : Int))
                (top.date, top.date + (duration : Int)) = true) := by
          intro x
          rw [← hout', List.mem_filter, List.mem_insertionSort]
          simp only [Bool.not_eq_eq_eq_not, Bool.not_true, Bool.or_eq_false_iff,
            Bool.and_eq_true, decide_eq_true_eq, not_or, Bool.not_eq_true]
        refine ⟨fr, top, rfl, htop, hmem, ?_⟩
        obtain ⟨_, rs, hloop⟩ := calculateFullRound_inv hfr
        have htopmem : top ∈ fr.winners := by
          cases hw : fr.winners with
          | nil =>
            rw [hw] at htop
            exact Option.noConfusion htop
          | cons y ys =>
            rw [hw] at htop
            have hyt : y = top := by simpa using htop
            rw [← hyt]
            exact List.mem_cons_self y ys
        have hdate := fullRoundLoop_dates _ _ _ _ _ _ hloop top htopmem
        simp only [List.map_nil, List.not_mem_nil, false_or] at hdate
        rcases List.mem_map.mp hdate with ⟨y, hy, hyd⟩
        refine ⟨y, ?_, hyd⟩
        rw [hmem y]
        refine ⟨hy, ?_⟩
        rw [hyd]
        unfold timeInsideRange
        simp

/-- A full round with at least one mini round left satisfies the first mini
round's precondition. -/
theorem fullRoundLoop_cons_pre {numWinners : Nat} {winners cands : List Candidate}
    {t : miniRoundType} {ts : List miniRoundType} {rs : List MiniRoundResult}
    {w : List Candidate}
    (h : fullRoundLoop numWinners winners cands (t :: ts) = some (rs, w)) :
    numWinners - winners.length < cands.length := by
  rw [fullRoundLoop] at h
  cases hm : calculateMiniRound (numWinners - winners.length) cands t with
  | none =>
    rw [hm] at h
    exact Option.noConfusion h
  | some r => exact (calculateMiniRound_inv hm).1

/-- When only the first mini round of a full round can be ranked robin,
every final winner is an accumulated winner or a member of the first
round's (possibly ranked-wins-updated) pool. -/
theorem fullRoundLoop_head_mem {numWinners : Nat} {winners cands : List Candidate}
    {t : miniRoundType} {ts : List miniRoundType} {rs : List MiniRoundResult}
    {w : List Candidate}
    (hts : ∀ u ∈ ts, u ≠ miniRoundType.rankedRobin)
    (h : fullRoundLoop numWinners winners cands (t :: ts) = some (rs, w)) :
    ∀ x ∈ w, x ∈ winners ∨ x ∈ poolFor cands t := by
  rw [fullRoundLoop] at h
  cases hm : calculateMiniRound (numWinners - winners.length) cands t with
  | none =>
    rw [hm] at h
    exact Option.noConfusion h
  | some r =>
    rw [hm] at h
    obtain ⟨hlt, rfl⟩ := calculateMiniRound_inv hm
    simp only [miniFor] at h
    have hmemw : ∀ y ∈ winners ++ winnersFor (numWinners - winners.length) cands t,
        y ∈ winners ∨ y ∈ poolFor cands t := by
      intro y hy
      rcases List.mem_append.mp hy with hy1 | hy2
      · exact Or.inl hy1
      · exact Or.inr (mem_winnersFor hy2)
    by_cases hres : (winners ++ winnersFor (numWinners - winners.length) cands t).length
        = numWinners
    · rw [if_pos hres] at h
      rcases Option.some_injective _ h with h'
      rcases h' with ⟨rfl, rfl⟩
      exact hmemw
    · rw [if_neg hres] at h
      cases hloop : fullRoundLoop numWinners
          (winners ++ winnersFor (numWinners - winners.length) cands t)
          (tiedFor (numWinners - winners.length) cands t) ts with
      | none =>
        rw [hloop] at h
        exact Option.noConfusion h
      | some p =>
        rcases p with ⟨rs', w'⟩
        rw [hloop] at h
        rcases Option.some_injective _ h with h'
        rcases h' with ⟨rfl, rfl⟩
        intro x hx
        rcases fullRoundLoop_mem_of_no_rankedRobin ts numWinners _ _ _ _ hts hloop x hx
          with hd | hd
        · exact hmemw x hd
        · exact Or.inr (mem_tiedFor hd)

/-- Inversion of `calculateStarBest` when the result carries a best time and
a next best: the exact intermediate records of the scoring round, runoff
round, winner, runner-up and reported fraction. -/
theorem calculateStarBest_inv {cands : List Candidate} {duration : Nat}
    {r : StarResults} {bt nb : TimeScore}
    (h : calculateStarBest cands duration = some r)
    (hbt : r.bestTime = some bt) (hnb : r.nextBest = some nb) :
    ∃ sr rr winner second ww sw,
      calculateFullRound 2 cands [.score, .rankedRobin, .fiveStars, .random] = some sr ∧
      calculateFullRound 1 sr.winners [.rankedRobin, .score, .fiveStars, .random] = some rr ∧
      rr.winners.head? = some winner ∧
      (calculateRankedWins sr.winners).find? (fun w => decide (w.date ≠ winner.date))
        = some second ∧
      getMetric winner .rankedRobin = some ww ∧
      getMetric second .rankedRobin = some sw ∧
      bt = { time := winner.date,
             score := winner.score / ((duration / TIMESLOT_MINUTES : Nat) : ℚ) } ∧
      nb = { time := second.date,
             score := second.score / ((duration / TIMESLOT_MINUTES : Nat) : ℚ) } ∧
      r.preferredFraction = some (if ww + sw = 0 then 0 else ww / (ww + sw)) := by
  unfold calculateStarBest at h
  simp only [] at h
  by_cases hc0 : cands.length = 0
  · rw [if_pos hc0] at h
    have h' := Option.some_injective _ h
    rw [← h'] at hbt
    simp at hbt
  · rw [if_neg hc0] at h
    by_cases hc1 : cands.length = 1
    · rw [if_pos hc1] at h
      have h' := Option.some_injective _ h
      rw [← h'] at hnb
      simp at hnb
    · rw [if_neg hc1] at h
      cases hsr : calculateFullRound 2 cands [.score, .rankedRobin, .fiveStars, .random] with
      | none =>
        rw [hsr] at h
        exact Option.noConfusion h
      | some sr =>
        rw [hsr] at h
        simp only [] at h
        cases hrr : calculateFullRound 1 sr.winners
            [.rankedRobin, .score, .fiveStars, .random] with
        | none =>
          rw [hrr] at h
          exact Option.noConfusion h
        | some rr =>
          rw [hrr] at h
          simp only [] at h
          cases hwin : rr.winners.head? with
          | none =>
            rw [hwin] at h
            exact Option.noConfusion h
          | some winner =>
            rw [hwin] at h
            simp only [] at h
            cases hsec : (calculateRankedWins sr.winners).find?
                (fun w => decide (w.date ≠ winner.date)) with
            | none =>
              rw [hsec] at h
              exact Option.noConfusion h
            | some second =>
              rw [hsec] at h
              simp only [] at h
              cases hgm1 : getMetric winner .rankedRobin with
              | none =>
                rw [hgm1] at h
                exact Option.noConfusion h
              | some ww =>
                rw [hgm1] at h
                cases hgm2 : getMetric second .rankedRobin with
                | none =>
                  rw [hgm2] at h
                  exact Option.noConfusion h
                | some sw =>
                  rw [hgm2] at h
                  simp only [] at h
                  have hr := Option.some_injective _ h
                  refine ⟨sr, rr, winner, second, ww, sw, rfl, hrr, hwin, hsec,
                    hgm1, hgm2, ?_, ?_, ?_⟩
                  · rw [← hr] at hbt
                    exact (Option.some_injective _ hbt).symm
                  · rw [← hr] at hnb
                    exact (Option.some_injective _ hnb).symm
                  · rw [← hr]

/-- Arithmetic shape of the guarded fraction used by the preference
computation. -/
theorem fraction_bounds (a b : Nat) :
    0 ≤ (if ((a : ℚ) + (b : ℚ)) = 0 then (0 : ℚ) else (a : ℚ) / ((a : ℚ) + (b : ℚ))) ∧
    (if ((a : ℚ) + (b : ℚ)) = 0 then (0 : ℚ) else (a : ℚ) / ((a : ℚ) + (b : ℚ))) ≤ 1 ∧
    (a + b = 0 →
      (if ((a : ℚ) + (b : ℚ)) = 0 then (0 : ℚ) else (a : ℚ) / ((a : ℚ) + (b : ℚ))) = 0) := by
  by_cases h : ((a : ℚ) + (b : ℚ)) = 0
  · simp [h]
  · have hpos : 0 < (a : ℚ) + (b : ℚ) :=
      lt_of_le_of_ne (by positivity) (Ne.symm h)
    refine ⟨?_, ?_, ?_⟩
    · rw [if_neg h]
      positivity
    · rw [if_neg h]
      rw [div_le_one hpos]
      have hb : (0 : ℚ) ≤ (b : ℚ) := Nat.cast_nonneg b
      linarith
    · intro hab
      exfalso
      apply h
      exact_mod_cast hab

/-- C8: whenever a winner and a runner-up are produced, the scoring round
produced exactly two finalists; the reported preference fraction is the
winner's ranked-robin win count over the sum of both finalists' counts,
where the counts are exactly the 1-on-1 matchup counts between these two
finalists (`calculateRankedWinsBetweenPair` in both directions); the
fraction lies in `[0,1]` and is `0` (not undefined) when both counts are
zero. -/
theorem c8_preference_fraction (cands : List Candidate) (duration : Nat)
    (r : StarResults) (bt nb : TimeScore)
    (h : calculateStarBest cands duration = some r)
    (hbt : r.bestTime = some bt) (hnb : r.nextBest = some nb) :
    ∃ (sr : FullRoundResult) (w1 w2 : Candidate) (a b : Nat) (pf : ℚ),
      calculateFullRound 2 cands [.score, .rankedRobin, .fiveStars, .random] = some sr ∧
      sr.winners = [w1, w2] ∧
      a = calculateRankedWinsBetweenPair w1.people w2.people ∧
      b = calculateRankedWinsBetweenPair w2.people w1.people ∧
      r.preferredFraction = some pf ∧
      ((bt.time = w1.date ∧ nb.time = w2.date ∧
          pf = (if ((a : ℚ) + (b : ℚ)) = 0 then 0 else (a : ℚ) / ((a : ℚ) + (b : ℚ)))) ∨
       (bt.time = w2.date ∧ nb.time = w1.date ∧
          pf = (if ((b : ℚ) + (a : ℚ)) = 0 then 0 else (b : ℚ) / ((b : ℚ) + (a : ℚ))))) ∧
      0 ≤ pf ∧ pf ≤ 1 ∧ (a + b = 0 → pf = 0) := by
  obtain ⟨sr, rr, winner, second, ww, sw, hsr, hrr, hwin, hsec, hgm1, hgm2, hbt', hnb', hpf⟩ :=
    calculateStarBest_inv h hbt hnb
  obtain ⟨-, rs2, hloop2⟩ := calculateFullRound_inv hrr
  have h2lt : 1 < sr.winners.length := by
    have hpre := fullRoundLoop_cons_pre hloop2
    simpa using hpre
  obtain ⟨-, rs1, hloop1⟩ := calculateFullRound_inv hsr
  have hle2 : sr.winners.length ≤ 2 :=
    fullRoundLoop_length_le _ 2 [] cands rs1 sr.winners (by simp) hloop1
  have hlen2 : sr.winners.length = 2 := le_antisymm hle2 h2lt
  obtain ⟨w1, w2, hw12⟩ := List.length_eq_two.mp hlen2
  have hwmem : winner ∈ rr.winners := by
    cases hw : rr.winners with
    | nil =>
      rw [hw] at hwin
      exact Option.noConfusion hwin
    | cons y ys =>
      rw [hw] at hwin
      have hyw : y = winner := by simpa using hwin
      rw [← hyw]
      exact List.mem_cons_self y ys
  have hts : ∀ u ∈ [miniRoundType.score, miniRoundType.fiveStars, miniRoundType.random],
      u ≠ miniRoundType.rankedRobin := by
    intro u hu
    simp only [List.mem_cons, List.not_mem_nil, or_false] at hu
    rcases hu with rfl | rfl | rfl <;> decide
  have hpool : winner ∈ calculateRankedWins sr.winners := by
    rcases fullRoundLoop_head_mem hts hloop2 winner hwmem with h0 | hp
    · exact absurd h0 (List.not_mem_nil winner)
    · simpa [poolFor] using hp
  rw [hw12, calculateRankedWins_pair] at hpool hsec
  simp only [List.mem_cons, List.not_mem_nil, or_false] at hpool
  rcases hpool with hwg1 | hwg2
  · -- winner carries the first finalist's record
    have hwd : winner.date = w1.date := by rw [hwg1]
    have hww : ww = ((calculateRankedWinsBetweenPair w1.people w2.people : Nat) : ℚ) := by
      rw [hwg1] at hgm1
      simp only [getMetric, Option.map_some'] at hgm1
      exact (Option.some_injective _ hgm1).symm
    rw [hwd] at hsec
    rw [List.find?_cons_of_neg _ (by simp)] at hsec
    by_cases hdd : w2.date = w1.date
    · exfalso
      rw [List.find?_cons_of_neg _ (by simp [hdd]), List.find?_nil] at hsec
      exact Option.noConfusion hsec
    · rw [List.find?_cons_of_pos _ (by simp [hdd])] at hsec
      have hsecd := Option.some_injective _ hsec
      have hsw : sw = ((calculateRankedWinsBetweenPair w2.people w1.people : Nat) : ℚ) := by
        rw [← hsecd] at hgm2
        simp only [getMetric, Option.map_some'] at hgm2
        exact (Option.some_injective _ hgm2).symm
      rw [hww, hsw] at hpf
      refine ⟨sr, w1, w2, calculateRankedWinsBetweenPair w1.people w2.people,
        calculateRankedWinsBetweenPair w2.people w1.people, _, hsr, hw12, rfl, rfl, hpf,
        Or.inl ⟨?_, ?_, rfl⟩, ?_, ?_, ?_⟩
      · rw [hbt']
        exact hwd
      · rw [hnb', ← hsecd]
      · exact (fraction_bounds _ _).1
      · exact (fraction_bounds _ _).2.1
      · exact (fraction_bounds _ _).2.2
  · -- winner carries the second finalist's record
    have hwd : winner.date = w2.date := by rw [hwg2]
    have hww : ww = ((calculateRankedWinsBetweenPair w2.people w1.people : Nat) : ℚ) := by
      rw [hwg2] at hgm1
      simp only [getMetric, Option.map_some'] at hgm1
      exact (Option.some_injective _ hgm1).symm
    rw [hwd] at hsec
    by_cases hdd : w1.date = w2.date
    · exfalso
      rw [List.find?_cons_of_neg _ (by simp [hdd]),
        List.find?_cons_of_neg _ (by simp), List.find?_nil] at hsec
      exact Option.noConfusion hsec
    · rw [List.find?_cons_of_pos _ (by simp [hdd])] at hsec
      have hsecd := Option.some_injective _ hsec
      have hsw : sw = ((calculateRankedWinsBetweenPair w1.people w2.people : Nat) : ℚ) := by
        rw [← hsecd] at hgm2
        simp only [getMetric, Option.map_some'] at hgm2
        exact (Option.some_injective _ hgm2).symm
      rw [hww, hsw] at hpf
      refine ⟨sr, w1, w2, calculateRankedWinsBetweenPair w1.people w2.people,
        calculateRankedWinsBetweenPair w2.people w1.people, _, hsr, hw12, rfl, rfl, hpf,
        Or.inr ⟨?_, ?_, rfl⟩, ?_, ?_, ?_⟩
      · rw [hbt']
        exact hwd
      · rw [hnb', ← hsecd]
      · exact (fraction_bounds _ _).1
      · exact (fraction_bounds _ _).2.1
      · intro hab
        exact (fraction_bounds _ _).2.2 (by omega)

/-- Inversion of the Overlap Filter on a pool of more than two candidates:
the surviving list is the filter of the score-sorted pool against the top
scorer's window. -/
theorem removeOverlaps_inv {cands : List Candidate} {duration : Nat}
    {out : List Candidate} (hlen : 2 < cands.length)
    (h : removeOverlapsWithTopScorer cands duration = some out) :
    ∃ fr top,
      calculateFullRound 1 cands [.score, .rankedRobin, .fiveStars, .random] = some fr ∧
      fr.winners.head? = some top ∧
      out = (cands.insertionSort (fun a b => b.score ≤ a.score)).filter (fun other =>
        !(timeInsideRange other.date (top.date, top.date + (duration : Int))
          || timeInsideRange (other.date + (duration : Int))
            (top.date, top.date + (duration : Int)))) := by
  unfold removeOverlapsWithTopScorer at h
  rw [if_pos hlen] at h
  cases hfr : calculateFullRound 1 cands [.score, .rankedRobin, .fiveStars, .random] with
  | none =>
    rw [hfr] at h
    exact Option.noConfusion h
  | some fr =>
    rw [hfr] at h
    simp only [] at h
    cases htop : fr.winners.head? with
    | none =>
      rw [htop] at h
      exact Option.noConfusion h
    | some top =>
      rw [htop] at h
      exact ⟨fr, top, rfl, htop, (Option.some_injective _ h).symm⟩

/-- C4 (amended): whenever the pipeline reports both a best and a next best
time, the Overlap Filter did run on the candidate pool, and neither
finalist's window strictly overlaps the window of the top scorer the filter
found: neither window's start nor its end lies strictly inside the top
window `[top, top + duration)` (both finalists are survivors of the
filter).  The finalists' windows may still overlap each other, as the
separate counterexample shows. -/
theorem c4_amended_no_overlap_with_top (times : List Time) (people : List PersonResponse)
    (duration : Nat) (eventId : String) (seedrandom : String → Nat → ℚ)
    (r : StarResults) (bt nb : TimeScore)
    (h : calculateBestTime times people duration eventId seedrandom = some r)
    (hbt : r.bestTime = some bt) (hnb : r.nextBest = some nb) :
    ∃ fr top survivors,
      removeOverlapsWithTopScorer
        (calculateSimpleCandidateMetrics
          (calculateAvailability times (replaceScoresWithFullScores times people duration))
          duration (seedrandom eventId)) duration = some survivors ∧
      calculateFullRound 1
        (calculateSimpleCandidateMetrics
          (calculateAvailability times (replaceScoresWithFullScores times people duration))
          duration (seedrandom eventId))
        [.score, .rankedRobin, .fiveStars, .random] = some fr ∧
      fr.winners.head? = some top ∧
      timeInsideRange bt.time (top.date, top.date + (duration : Int)) = false ∧
      timeInsideRange (bt.time + (duration : Int))
        (top.date, top.date + (duration : Int)) = false ∧
      timeInsideRange nb.time (top.date, top.date + (duration : Int)) = false ∧
      timeInsideRange (nb.time + (duration : Int))
        (top.date, top.date + (duration : Int)) = false := by
  unfold calculateBestTime at h
  by_cases hp0 : people.length = 0
  · rw [if_pos hp0] at h
    have h' := Option.some_injective _ h
    rw [← h'] at hbt
    simp at hbt
  · rw [if_neg hp0] at h
    simp only [] at h
    cases hrm : removeOverlapsWithTopScorer
        (calculateSimpleCandidateMetrics
          (calculateAvailability times (replaceScoresWithFullScores times people duration))
          duration (seedrandom eventId)) duration with
    | none =>
      rw [hrm] at h
      exact Option.noConfusion h
    | some survivors =>
      rw [hrm] at h
      simp only [] at h
      obtain ⟨sr, rr, winner, second, ww, sw, hsr, hrr, hwin, hsec, hgm1, hgm2,
        hbt', hnb', hpf⟩ := calculateStarBest_inv h hbt hnb
      obtain ⟨-, rs1, hloop1⟩ := calculateFullRound_inv hsr
      have h2lt : 2 < survivors.length := by
        have hpre := fullRoundLoop_cons_pre hloop1
        simpa using hpre
      have hlenpool : 2 < (calculateSimpleCandidateMetrics
          (calculateAvailability times (replaceScoresWithFullScores times people duration))
          duration (seedrandom eventId)).length := by
        by_contra hle
        unfold removeOverlapsWithTopScorer at hrm
        rw [if_neg hle] at hrm
        have h' := Option.some_injective _ hrm
        rw [h'] at hle
        exact hle h2lt
      obtain ⟨fr, top, hfr, htop, hflt⟩ := removeOverlaps_inv hlenpool hrm
      have hkeep : ∀ d, d ∈ survivors.map (fun c => c.date) →
          timeInsideRange d (top.date, top.date + (duration : Int)) = false ∧
          timeInsideRange (d + (duration : Int))
            (top.date, top.date + (duration : Int)) = false := by
        intro d hd
        rcases List.mem_map.mp hd with ⟨z, hz, hzd⟩
        rw [hflt] at hz
        have hzp := List.of_mem_filter hz
        simp only [Bool.not_eq_eq_eq_not, Bool.not_true, Bool.or_eq_false_iff] at hzp
        rw [← hzd]
        exact hzp
      obtain ⟨-, rs2, hloop2⟩ := calculateFullRound_inv hrr
      have hwmem : winner ∈ rr.winners := by
        cases hw : rr.winners with
        | nil =>
          rw [hw] at hwin
          exact Option.noConfusion hwin
        | cons y ys =>
          rw [hw] at hwin
          have hyw : y = winner := by simpa using hwin
          rw [← hyw]
          exact List.mem_cons_self y ys
      have hdate_sr : ∀ x : Candidate, x.date ∈ sr.winners.map (fun c => c.date) →
          x.date ∈ survivors.map (fun c => c.date) := by
        intro x hx
        rcases List.mem_map.mp hx with ⟨y, hy, hyd⟩
        have hyd2 := fullRoundLoop_dates _ 2 [] survivors rs1 sr.winners hloop1 y hy
        simp only [List.map_nil, List.not_mem_nil, false_or] at hyd2
        rw [← hyd]
        exact hyd2
      have hwdate : winner.date ∈ survivors.map (fun c => c.date) := by
        have hwd1 := fullRoundLoop_dates _ 1 [] sr.winners rs2 rr.winners hloop2 winner hwmem
        simp only [List.map_nil, List.not_mem_nil, false_or] at hwd1
        exact hdate_sr winner hwd1
      have hsdate : second.date ∈ survivors.map (fun c => c.date) := by
        have hsmem := List.mem_of_find?_eq_some hsec
        have hsd : second.date ∈ (calculateRankedWins sr.winners).map (fun c => c.date) :=
          List.mem_map_of_mem _ hsmem
        rw [datemap_calculateRankedWins] at hsd
        exact hdate_sr second hsd
      have hbtd : bt.time = winner.date := by rw [hbt']
      have hnbd : nb.time = second.date := by rw [hnb']
      refine ⟨fr, top, survivors, rfl, hfr, htop, ?_, ?_, ?_, ?_⟩
      · rw [hbtd]
        exact (hkeep winner.date hwdate).1
      · rw [hbtd]
        exact (hkeep winner.date hwdate).2
      · rw [hnbd]
        exact (hkeep second.date hsdate).1
      · rw [hnbd]
        exact (hkeep second.date hsdate).2

section ConcreteEvaluationTwo

attribute [local semireducible] Rat.add Rat.mul Rat.inv Rat.sub

theorem c5_overlap_filter_witness :
    (2 < ([witnessCandA, witnessCandB, witnessCandC] : List Candidate).length) ∧
    removeOverlapsWithTopScorer [witnessCandA, witnessCandB, witnessCandC] 90 =
      some [witnessCandA, witnessCandC] ∧
    (∃ fr top,
      calculateFullRound 1 [witnessCandA, witnessCandB, witnessCandC]
          [.score, .rankedRobin, .fiveStars, .random] = some fr ∧
      fr.winners.head? = some top ∧
      (∀ x, x ∈ [witnessCandA, witnessCandC] ↔
        x ∈ [witnessCandA, witnessCandB, witnessCandC] ∧
        ¬(timeInsideRange x.date (top.date, top.date + ((90 : Nat) : Int)) = true ∨
          timeInsideRange (x.date + ((90 : Nat) : Int))
            (top.date, top.date + ((90 : Nat) : Int)) = true)) ∧
      ∃ c ∈ [witnessCandA, witnessCandC], c.date = top.date) := by
  have hrm : removeOverlapsWithTopScorer [witnessCandA, witnessCandB, witnessCandC] 90 =
      some [witnessCandA, witnessCandC] := by decide
  exact ⟨by decide, hrm,
    (c5_overlap_filter [witnessCandA, witnessCandB, witnessCandC] 90).2 (by decide)
      [witnessCandA, witnessCandC] hrm⟩

theorem c8_preference_fraction_witness :
    calculateStarBest [witnessCandA, witnessCandB, witnessCandC] 30 =
      some { bestTime := some { time := 0, score := 3/2 },
             nextBest := some { time := 60, score := 1 },
             preferredFraction := some (1/2) } ∧
    (∃ (sr : FullRoundResult) (w1 w2 : Candidate) (a b : Nat) (pf : ℚ),
      calculateFullRound 2 [witnessCandA, witnessCandB, witnessCandC]
        [.score, .rankedRobin, .fiveStars, .random] = some sr ∧
      sr.winners = [w1, w2] ∧
      a = calculateRankedWinsBetweenPair w1.people w2.people ∧
      b = calculateRankedWinsBetweenPair w2.people w1.people ∧
      (some (1/2) : Option ℚ) = some pf ∧
      (((0 : Time) = w1.date ∧ (60 : Time) = w2.date ∧
          pf = (if ((a : ℚ) + (b : ℚ)) = 0 then 0 else (a : ℚ) / ((a : ℚ) + (b : ℚ)))) ∨
       ((0 : Time) = w2.date ∧ (60 : Time) = w1.date ∧
          pf = (if ((b : ℚ) + (a : ℚ)) = 0 then 0 else (b : ℚ) / ((b : ℚ) + (a : ℚ))))) ∧
      0 ≤ pf ∧ pf ≤ 1 ∧ (a + b = 0 → pf = 0)) := by
  have h : calculateStarBest [witnessCandA, witnessCandB, witnessCandC] 30 =
      some { bestTime := some { time := 0, score := 3/2 },
             nextBest := some { time := 60, score := 1 },
             preferredFraction := some (1/2) } := by decide
  exact ⟨h, c8_preference_fraction [witnessCandA, witnessCandB, witnessCandC] 30
    _ _ _ h rfl rfl⟩

theorem c4_amended_no_overlap_with_top_witness :
    calculateBestTime overlapTimes overlapPeople 30 "event" fixedRng =
      some { bestTime := some { time := 75, score := 11/2 },
             nextBest := some { time := 90, score := 11/2 },
             preferredFraction := some (2/3) } ∧
    (∃ fr top survivors,
      removeOverlapsWithTopScorer
        (calculateSimpleCandidateMetrics
          (calculateAvailability overlapTimes
            (replaceScoresWithFullScores overlapTimes overlapPeople 30))
          30 (fixedRng "event")) 30 = some survivors ∧
      calculateFullRound 1
        (calculateSimpleCandidateMetrics
          (calculateAvailability overlapTimes
            (replaceScoresWithFullScores overlapTimes overlapPeople 30))
          30 (fixedRng "event"))
        [.score, .rankedRobin, .fiveStars, .random] = some fr ∧
      fr.winners.head? = some top ∧
      timeInsideRange (75 : Time) (top.date, top.date + ((30 : Nat) : Int)) = false ∧
      timeInsideRange ((75 : Time) + ((30 : Nat) : Int))
        (top.date, top.date + ((30 : Nat) : Int)) = false ∧
      timeInsideRange (90 : Time) (top.date, top.date + ((30 : Nat) : Int)) = false ∧
      timeInsideRange ((90 : Time) + ((30 : Nat) : Int))
        (top.date, top.date + ((30 : Nat) : Int)) = false) := by
  have h : calculateBestTime overlapTimes overlapPeople 30 "event" fixedRng =
      some { bestTime := some { time := 75, score := 11/2 },
             nextBest := some { time := 90, score := 11/2 },
             preferredFraction := some (2/3) } := by decide
  exact ⟨h, c4_amended_no_overlap_with_top overlapTimes overlapPeople 30 "event" fixedRng
    _ _ _ h rfl rfl⟩

end ConcreteEvaluationTwo

end StarFit
